import Mathlib

/-!
Verification of the three-sequence alignment edit-graph system
(Blosum62 scoring matrix, WDAGraphFileBuilder, WDAGraph engine).

The definitions below are a shallow embedding of the C++ sources:
 * `Blosum62.*`      embeds src/Blossum62.cpp (scoring matrix, gap cost,
   sum-of-pairs weight).  Fallible matrix lookup (the C++ `map::at` throws
   on an unknown residue) is modelled with `Option`.
 * `Builder.*`       embeds `WDAGraphFileBuilder::buildGraphFile` and
   `WDAGraphFileBuilder::addEdge` (src/WDAGraphFileBuilder.cpp).  The
   vertex/edge streams are modelled as lists; the written file is the
   vertex lines followed by the edge lines.
 * `Engine.*`        embeds the `WDAGraph` object
   (src/WDAGraphFileBuilder.h, second and third documents): graph loading,
   `findHighestWeightPath`, `getPath`, `getPathStartNodeLabel`,
   `resultString` (its path-reporting part) and the edge-frequency
   accumulation of `WDAGraph::addEdge`.  Edge weights are modelled as
   integers (every weight the builder writes is an integer); the vertex
   weight sentinel `INT_MIN` is the integer `-2^31`, exactly as in the
   C++ (where the `double` weight field holds the converted `INT_MIN`).
-/

namespace Blosum62

/-- The gap character, `'-'` in both `WDAGraphFileBuilder` and `Blosum62`. -/
def gapChar : Char := '-'

/-- The Blosum62 scoring matrix, row by row as in `Blosum62::matrix`. -/
def matrix : List (List Int) :=
  [ [ 4, -1, -2, -2,  0, -1, -1,  0, -2, -1, -1, -1, -1, -2, -1,  1,  0, -3, -2,  0],
    [-1,  5,  0, -2, -3,  1,  0, -2,  0, -3, -2,  2, -1, -3, -2, -1, -1, -3, -2, -3],
    [-2,  0,  6,  1, -3,  0,  0,  0,  1, -3, -3,  0, -2, -3, -2,  1,  0, -4, -2, -3],
    [-2, -2,  1,  6, -3,  0,  2, -1, -1, -3, -4, -1, -3, -3, -1,  0, -1, -4, -3, -3],
    [ 0, -3, -3, -3,  9, -3, -4, -3, -3, -1, -1, -3, -1, -2, -3, -1, -1, -2, -2, -1],
    [-1,  1,  0,  0, -3,  5,  2, -2,  0, -3, -2,  1,  0, -3, -1,  0, -1, -2, -1, -2],
    [-1,  0,  0,  2, -4,  2,  5, -2,  0, -3, -3,  1, -2, -3, -1,  0, -1, -3, -2, -2],
    [ 0, -2,  0, -1, -3, -2, -2,  6, -2, -4, -4, -2, -3, -3, -2,  0, -2, -2, -3, -3],
    [-2,  0,  1, -1, -3,  0,  0, -2,  8, -3, -3, -1, -2, -1, -2, -1, -2, -2,  2, -3],
    [-1, -3, -3, -3, -1, -3, -3, -4, -3,  4,  2, -3,  1,  0, -3, -2, -1, -3, -1,  3],
    [-1, -2, -3, -4, -1, -2, -3, -4, -3,  2,  4, -2,  2,  0, -3, -2, -1, -2, -1,  1],
    [-1,  2,  0, -1, -3,  1,  1, -2, -1, -3, -2,  5, -1, -3, -1,  0, -1, -3, -2, -2],
    [-1, -1, -2, -3, -1,  0, -2, -3, -2,  1,  2, -1,  5,  0, -2, -1, -1, -1, -1,  1],
    [-2, -3, -3, -3, -2, -3, -3, -3, -1,  0,  0, -3,  0,  6, -4, -2, -2,  1,  3, -1],
    [-1, -2, -2, -1, -3, -1, -1, -2, -2, -3, -3, -1, -2, -4,  7, -1, -1, -4, -3, -2],
    [ 1, -1,  1,  0, -1,  0,  0,  0, -1, -2, -2,  0, -1, -2, -1,  4,  1, -3, -2, -2],
    [ 0, -1,  0, -1, -1, -1, -1, -2, -2, -1, -1, -1, -1, -2, -1,  1,  5, -2, -2,  0],
    [-3, -3, -4, -4, -2, -2, -3, -2, -2, -3, -2, -3, -1,  1, -4, -3, -2, 11,  2, -3],
    [-2, -2, -2, -3, -2, -1, -2, -3,  2, -1, -1, -2, -1,  3, -3, -2, -2,  2,  7, -1],
    [ 0, -3, -3, -3, -1, -2, -2, -3, -3,  3,  1, -2,  1, -1, -2, -2,  0, -3, -1,  4] ]

/-- The residue-to-row index map of `Blosum62::createResidueMap`.
`none` models the `map::at` exception for an unknown residue. -/
def residueIndex : Char → Option Nat
  | 'A' => some 0
  | 'R' => some 1
  | 'N' => some 2
  | 'D' => some 3
  | 'C' => some 4
  | 'Q' => some 5
  | 'E' => some 6
  | 'G' => some 7
  | 'H' => some 8
  | 'I' => some 9
  | 'L' => some 10
  | 'K' => some 11
  | 'M' => some 12
  | 'F' => some 13
  | 'P' => some 14
  | 'S' => some 15
  | 'T' => some 16
  | 'W' => some 17
  | 'Y' => some 18
  | 'V' => some 19
  | _   => none

/-- The 20-symbol residue alphabet, in matrix order. -/
def alphabet : List Char :=
  ['A', 'R', 'N', 'D', 'C', 'Q', 'E', 'G', 'H', 'I',
   'L', 'K', 'M', 'F', 'P', 'S', 'T', 'W', 'Y', 'V']

/-- `Blosum62::gapCost`. -/
def gapCost : Int := -6

/-- `Blosum62::getScore`: matrix entry when both symbols are residues,
`gapCost` when exactly one is the gap character, `0` when both are gaps.
`none` models the exception raised by an out-of-alphabet residue lookup. -/
def getScore (residue1 residue2 : Char) : Option Int :=
  if residue1 ≠ gapChar ∧ residue2 ≠ gapChar then
    do
      let i ← residueIndex residue1
      let j ← residueIndex residue2
      let row ← matrix.get? i
      row.get? j
  else if residue1 ≠ gapChar ∨ residue2 ≠ gapChar then
    some gapCost
  else
    some 0

/-- `Blosum62::sumOfPairsWeight`: the sum of the three pairwise scores,
added in the order of the source. -/
def sumOfPairsWeight (residue1 residue2 residue3 : Char) : Option Int :=
  do
    let s12 ← getScore residue1 residue2
    let s23 ← getScore residue2 residue3
    let s13 ← getScore residue1 residue3
    pure (s12 + s23 + s13)

end Blosum62

namespace Builder

open Blosum62 (gapChar)

/-- One edge emitted by `WDAGraphFileBuilder::addEdge`: the 3-character
label, the start and end vertex index triples, and the sum-of-pairs
weight. -/
structure BEdge where
  label : List Char
  src : Nat × Nat × Nat
  dst : Nat × Nat × Nat
  weight : Option Int
deriving DecidableEq, Repr

/-- `WDAGraphFileBuilder::addEdge`: the end vertex adds 1 to a start
location exactly when the corresponding label character is an actual
residue (not the gap character); the weight is the Blosum62 sum of
pairs of the three label characters. -/
def mkEdge (r1 r2 r3 : Char) (i j k : Nat) : BEdge :=
  { label := [r1, r2, r3]
    src := (i, j, k)
    dst := ((if r1 = gapChar then i else i + 1),
            (if r2 = gapChar then j else j + 1),
            (if r3 = gapChar then k else k + 1))
    weight := Blosum62.sumOfPairsWeight r1 r2 r3 }

/-- The edges emitted at vertex `(i, j, k)` by the branch structure of
`WDAGraphFileBuilder::buildGraphFile` (lines 119-162): all seven edges
when no sequence is at its end, otherwise the guarded edges of the
`else if` branch for the first exhausted sequence.  `residueN` is the
character of the sequence at the current location; it is only read
under guards that keep the location in range, matching the source. -/
def outEdges (s1 s2 s3 : List Char) (i j k : Nat) : List BEdge :=
  let n1 := s1.length
  let n2 := s2.length
  let n3 := s3.length
  let r1 := s1.getD i 'A'
  let r2 := s2.getD j 'A'
  let r3 := s3.getD k 'A'
  if i < n1 ∧ j < n2 ∧ k < n3 then
    [mkEdge r1 gapChar gapChar i j k,
     mkEdge gapChar r2 gapChar i j k,
     mkEdge gapChar gapChar r3 i j k,
     mkEdge r1 r2 gapChar i j k,
     mkEdge gapChar r2 r3 i j k,
     mkEdge r1 gapChar r3 i j k,
     mkEdge r1 r2 r3 i j k]
  else if i = n1 then
    (if j < n2 then [mkEdge gapChar r2 gapChar i j k] else []) ++
    (if k < n3 then [mkEdge gapChar gapChar r3 i j k] else []) ++
    (if j < n2 ∧ k < n3 then [mkEdge gapChar r2 r3 i j k] else [])
  else if j = n2 then
    (if i < n1 then [mkEdge r1 gapChar gapChar i j k] else []) ++
    (if k < n3 then [mkEdge gapChar gapChar r3 i j k] else []) ++
    (if i < n1 ∧ k < n3 then [mkEdge r1 gapChar r3 i j k] else [])
  else if k = n3 then
    (if i < n1 then [mkEdge r1 gapChar gapChar i j k] else []) ++
    (if j < n2 then [mkEdge gapChar r2 gapChar i j k] else []) ++
    (if i < n1 ∧ j < n2 then [mkEdge r1 r2 gapChar i j k] else [])
  else
    []

/-- The vertex triples emitted by the three nested loops of
`buildGraphFile`, `i` outermost and `k` innermost, each from `0` to the
sequence length inclusive. -/
def buildVertices (n1 n2 n3 : Nat) : List (Nat × Nat × Nat) :=
  (List.range (n1 + 1)).flatMap fun i =>
    (List.range (n2 + 1)).flatMap fun j =>
      (List.range (n3 + 1)).map fun k => (i, j, k)

/-- All edges emitted by `buildGraphFile`, in loop order. -/
def buildEdges (s1 s2 s3 : List Char) : List BEdge :=
  (List.range (s1.length + 1)).flatMap fun i =>
    (List.range (s2.length + 1)).flatMap fun j =>
      (List.range (s3.length + 1)).flatMap fun k =>
        outEdges s1 s2 s3 i j k

/-- The textual vertex label `i,j,k`. -/
def vertexLabel (i j k : Nat) : String :=
  toString i ++ "," ++ toString j ++ "," ++ toString k

/-- A vertex line of the graph file. -/
def vertexLine (v : Nat × Nat × Nat) : String :=
  "V " ++ vertexLabel v.1 v.2.1 v.2.2

/-- An edge line of the graph file (an out-of-alphabet residue would
have aborted the C++ program before writing; that case renders the
weight field empty here). -/
def edgeLine (e : BEdge) : String :=
  "E " ++ String.mk e.label ++ " "
    ++ vertexLabel e.src.1 e.src.2.1 e.src.2.2 ++ " "
    ++ vertexLabel e.dst.1 e.dst.2.1 e.dst.2.2 ++ " "
    ++ (match e.weight with
        | some w => toString w
        | none => "")

/-- The lines of the graph file written by `buildGraphFile`: the vertex
stream followed by the edge stream. -/
def buildGraphFileLines (s1 s2 s3 : List Char) : List String :=
  (buildVertices s1.length s2.length s3.length).map vertexLine
    ++ (buildEdges s1 s2 s3).map edgeLine

end Builder

namespace Engine

/-- An edge of the loaded graph (`WDAGraph::Edge`): label, endpoint
vertex labels (the C++ stores vertex pointers and always compares
labels), and the numeric weight. -/
structure EEdge where
  label : String
  startV : String
  endV : String
  weight : Int
deriving DecidableEq, Repr

/-- A loaded graph (`WDAGraph` after `buildGraph`): the vertices in file
order, the edge list in file order, and the optional START/END
designations. -/
structure WGraph where
  vertices : List String
  edges : List EEdge
  startLabel : Option String
  endLabel : Option String

/-- The adjacency list of a vertex: `WDAGraph::addEdge` appends each
edge to the lists of both its endpoints (twice for a self-loop), in
file order. -/
def adj (g : WGraph) (v : String) : List EEdge :=
  g.edges.flatMap fun e =>
    (if e.startV = v then [e] else []) ++ (if e.endV = v then [e] else [])

/-- `INT_MIN`, the unreached-weight sentinel set by `WDAGraph::addVertex`. -/
def intMin : Int := -(2 ^ 31)

/-- The traversal state: per-label weight and best incoming edge
(`Vertex::weight`, `Vertex::edgeForHWPath`), the best terminal vertex
(`highestWeightNode`), and the local `startFound` flag of
`findHighestWeightPath`. -/
structure DPState where
  weights : String → Int
  best : String → Option EEdge
  hw : Option String
  startFound : Bool

/-- The state right after `buildGraph`: every weight `INT_MIN`, no best
incoming edges, no best terminal vertex. -/
def initState : DPState :=
  { weights := fun _ => intMin, best := fun _ => none,
    hw := none, startFound := false }

/-- One step of the inner edge loop of `findHighestWeightPath` at
vertex `v`: relax the edge if it ends at `v`; under a start constraint
an edge from an unreached vertex is skipped; a strictly better
candidate weight updates the vertex weight and its best incoming
edge. -/
def relaxStep (g : WGraph) (v : String) (st : DPState) (e : EEdge) : DPState :=
  if e.endV = v then
    if g.startLabel.isSome ∧ st.weights e.startV = intMin then st
    else
      if st.weights e.startV + e.weight > st.weights v then
        { st with
          weights := fun l => if l = v then st.weights e.startV + e.weight
                              else st.weights l,
          best := fun l => if l = v then some e else st.best l }
      else st
  else st

/-- The inner edge loop of `findHighestWeightPath` at vertex `v` over
the incident edge list. -/
def relaxVertex (g : WGraph) (v : String) (es : List EEdge) (st : DPState) : DPState :=
  es.foldl (relaxStep g v) st

/-- The start-constraint gate at the top of the vertex loop body:
`none` models the `continue` before the start vertex is found;
otherwise the state in which the rest of the body runs (weight reset to
0 for the trivial path where applicable). -/
def gateOf (g : WGraph) (st : DPState) (v : String) : Option DPState :=
  match g.startLabel with
  | some s =>
      if st.startFound then some st
      else if v = s then
        some { st with
               weights := fun l => if l = v then 0 else st.weights l,
               hw := some v, startFound := true }
      else none
  | none =>
      some { st with weights := fun l => if l = v then 0 else st.weights l }

/-- The tail of the vertex loop body: the end-constraint check (with
`break`, the second component) and, without an end constraint, the
best-terminal update. -/
def endPhase (g : WGraph) (st2 : DPState) (v : String) : DPState × Bool :=
  match g.endLabel with
  | some e =>
      if v = e then ({ st2 with hw := some v }, true) else (st2, false)
  | none =>
      match st2.hw with
      | none => ({ st2 with hw := some v }, false)
      | some h =>
          if st2.weights v > st2.weights h then
            ({ st2 with hw := some v }, false)
          else (st2, false)

/-- One iteration of the vertex loop of `findHighestWeightPath`.
Returns the new state and whether the loop `break`s (end vertex found).
The start-constraint gate, the relaxation, the end-constraint check and
the best-terminal update follow the source line by line. -/
def stepVertex (g : WGraph) (st : DPState) (v : String) : DPState × Bool :=
  match gateOf g st v with
  | none => (st, false)
  | some st1 => endPhase g (relaxVertex g v (adj g v) st1) v

/-- The vertex loop: process vertices in order, stopping at a `break`. -/
def runVertices (g : WGraph) : List String → DPState → DPState
  | [], st => st
  | v :: rest, st =>
      let r := stepVertex g st v
      if r.2 then r.1 else runVertices g rest r.1

/-- `WDAGraph::findHighestWeightPath`: reset the local `startFound`
flag and run the vertex loop over the stored vertex order.  The weight,
best-edge and best-terminal fields persist from the previous state, as
they do across calls in the C++ object. -/
def findHighestWeightPath (g : WGraph) (st : DPState) : DPState :=
  runVertices g g.vertices { st with startFound := false }

/-- The vertex loop together with the flag telling whether it stopped
at the designated end vertex (`break`). -/
def runB (g : WGraph) : List String → DPState → DPState × Bool
  | [], st => (st, false)
  | v :: rest, st =>
      let r := stepVertex g st v
      if r.2 then (r.1, true) else runB g rest r.1

/-- The backwards label walk of `WDAGraph::getPath`: from vertex `v`,
while a best incoming edge exists, append its label and a newline, then
step to the edge's start vertex.  `fuel` bounds the walk (the C++ loop
does not terminate on a best-edge cycle; every graph considered here is
acyclic). -/
def pathChars (best : String → Option EEdge) : Nat → String → List Char
  | 0, _ => []
  | fuel + 1, v =>
      match best v with
      | none => []
      | some e => (e.label.data ++ ['\n']) ++ pathChars best fuel e.startV

/-- `WDAGraph::getPath`: build the label string walking backwards from
the best terminal vertex, then return the character-wise reversal of
the whole string. -/
def getPath (g : WGraph) (st : DPState) : String :=
  match st.hw with
  | none => ""
  | some v => String.mk (pathChars st.best (g.vertices.length + 1) v).reverse

/-- The backwards walk of `WDAGraph::getPathStartNodeLabel`: follow
best incoming edges until a vertex without one is reached. -/
def pathStart (best : String → Option EEdge) : Nat → String → String
  | 0, v => v
  | fuel + 1, v =>
      match best v with
      | none => v
      | some e => pathStart best fuel e.startV

/-- The path-reporting part of `WDAGraph::resultString`. -/
inductive EngineResult where
  | noPath : EngineResult
  | found (score : Int) (beginV : String) (endV : String) (path : String) : EngineResult
deriving DecidableEq, Repr

/-- `WDAGraph::resultString`, path portion: the no-path indicator when
no best terminal vertex is recorded, otherwise the terminal's weight as
score, the walked-back start label, the terminal label, and the
`getPath` string. -/
def resultOf (g : WGraph) (st : DPState) : EngineResult :=
  match st.hw with
  | none => EngineResult.noPath
  | some v =>
      EngineResult.found (st.weights v)
        (pathStart st.best (g.vertices.length + 1) v) v (getPath g st)

/-- Associative-list write, `map[key] = value`. -/
def setEntry : List (String × Nat) → String → Nat → List (String × Nat)
  | [], k, v => [(k, v)]
  | (k0, v0) :: rest, k, v =>
      if k0 = k then (k0, v) :: rest else (k0, v0) :: setEntry rest k v

/-- The edge-frequency update of `WDAGraph::addEdge`.  The C++ line
`edgeFrequencies[edge->label] = freqIter->second++` first increments
the stored count and then assigns the pre-increment value back to the
same entry, so an existing count `v` becomes `v + 1` and is immediately
overwritten with `v`; a new label starts at `1`. -/
def bumpFrequency (m : List (String × Nat)) (lbl : String) : List (String × Nat) :=
  match m.lookup lbl with
  | some v => setEntry (setEntry m lbl (v + 1)) lbl v
  | none => setEntry m lbl 1

/-- The edge-frequency map after loading edges with the given labels in
order. -/
def edgeFrequenciesOf (labels : List String) : List (String × Nat) :=
  labels.foldl bumpFrequency []

end Engine

/-! ## Concrete loaded graphs used in the witnesses and counterexamples -/

/-- A loaded graph with a START vertex `A`, an END vertex `B` and no
edges: the end constraint can never be reached by a qualifying path, so
after the traversal the weight of `B` stays at the sentinel. -/
def Gce : Engine.WGraph :=
  { vertices := ["A", "B"]
    edges := []
    startLabel := some "A"
    endLabel := some "B" }

/-- An unconstrained two-vertex graph whose single edge is labeled
`AB-`. -/
def Gpath : Engine.WGraph :=
  { vertices := ["0", "1"]
    edges := [{ label := "AB-", startV := "0", endV := "1", weight := 5 }]
    startLabel := none
    endLabel := none }

/-! ## General list lemmas -/

/-- Length of a `flatMap` whose blocks all have the same length. -/
lemma length_flatMap_const {α β : Type} (l : List α) (f : α → List β) (c : Nat)
    (h : ∀ a ∈ l, (f a).length = c) :
    (l.flatMap f).length = l.length * c := by
  induction l with
  | nil => simp
  | cons a t ih =>
      have ha := h a (List.mem_cons_self a t)
      have ht := ih fun x hx => h x (List.mem_cons_of_mem a hx)
      simp only [List.flatMap_cons, List.length_append, ha, ht, List.length_cons]
      ring

/-- Indexing into a `flatMap` over `List.range` whose blocks all have
the same length. -/
lemma getElem?_flatMap_range {β : Type} (f : Nat → List β) (c : Nat) :
    ∀ n i r : Nat, (∀ m, m < n → (f m).length = c) → i < n → r < c →
      ((List.range n).flatMap f)[i * c + r]? = (f i)[r]? := by
  intro n
  induction n with
  | zero => intro i r _ hi _; omega
  | succ n ih =>
      intro i r hc hi hr
      have hrange : List.range (n + 1) = List.range n ++ [n] := by
        simpa using @List.range_succ n
      have hsplit : (List.range (n + 1)).flatMap f
          = (List.range n).flatMap f ++ f n := by
        rw [hrange, List.flatMap_append]
        simp
      have hlen : ((List.range n).flatMap f).length = n * c := by
        have := length_flatMap_const (List.range n) f c
          (fun a ha => hc a (by
            have := List.mem_range.mp ha
            omega))
        simpa using this
      rw [hsplit]
      by_cases hin : i < n
      · have hlt : i * c + r < n * c := by
          have h1 : i * c + r < (i + 1) * c := by
            calc i * c + r < i * c + c := by omega
            _ = (i + 1) * c := by ring
          have h2 : (i + 1) * c ≤ n * c := Nat.mul_le_mul_right c (by omega)
          omega
        rw [List.getElem?_append_left (by omega : i * c + r < ((List.range n).flatMap f).length)]
        exact ih i r (fun m hm => hc m (by omega)) hin hr
      · have hieq : i = n := by omega
        subst hieq
        rw [List.getElem?_append_right (by omega : ((List.range i).flatMap f).length ≤ i * c + r)]
        congr 1
        omega

/-! ## Builder lemmas -/

namespace Builder

/-- The vertex enumeration has exactly `(n1+1)(n2+1)(n3+1)` entries. -/
lemma buildVertices_length (n1 n2 n3 : Nat) :
    (buildVertices n1 n2 n3).length = (n1 + 1) * (n2 + 1) * (n3 + 1) := by
  unfold buildVertices
  rw [length_flatMap_const _ _ ((n2 + 1) * (n3 + 1))]
  · simp [Nat.mul_assoc]
  · intro a _
    rw [length_flatMap_const _ _ (n3 + 1)]
    · simp
    · intro b _
      simp

/-- The vertex triple `(i, j, k)` sits at nested-loop position
`(i*(n2+1)+j)*(n3+1)+k` of the enumeration. -/
lemma buildVertices_getElem? {n1 n2 n3 i j k : Nat}
    (h1 : i ≤ n1) (h2 : j ≤ n2) (h3 : k ≤ n3) :
    (buildVertices n1 n2 n3)[(i * (n2 + 1) + j) * (n3 + 1) + k]? = some (i, j, k) := by
  unfold buildVertices
  have hidx : (i * (n2 + 1) + j) * (n3 + 1) + k
      = i * ((n2 + 1) * (n3 + 1)) + (j * (n3 + 1) + k) := by ring
  rw [hidx]
  rw [getElem?_flatMap_range _ ((n2 + 1) * (n3 + 1)) (n1 + 1) i (j * (n3 + 1) + k)]
  · rw [getElem?_flatMap_range _ (n3 + 1) (n2 + 1) j k]
    · rw [List.getElem?_map, List.getElem?_range (by omega)]
      rfl
    · intro m _
      simp
    · omega
    · omega
  · intro m _
    rw [length_flatMap_const _ _ (n3 + 1)]
    · simp
    · intro b _
      simp
  · omega
  · have hlt : j * (n3 + 1) + k < (j + 1) * (n3 + 1) := by
      calc j * (n3 + 1) + k < j * (n3 + 1) + (n3 + 1) := by omega
      _ = (j + 1) * (n3 + 1) := by ring
    have : (j + 1) * (n3 + 1) ≤ (n2 + 1) * (n3 + 1) :=
      Nat.mul_le_mul_right (n3 + 1) (by omega)
    omega

end Builder

/-! ## Claim theorems: scoring matrix -/

/-- C8: for all residues `a`, `b` of the 20-symbol alphabet,
`getScore(a,b) = getScore(b,a)`; aligning a residue against the gap
character costs `gapCost()` in either order; aligning two gaps scores 0. -/
theorem claim8_score_symmetry (a b : Char)
    (ha : a ∈ Blosum62.alphabet) (hb : b ∈ Blosum62.alphabet) :
    Blosum62.getScore a b = Blosum62.getScore b a
    ∧ Blosum62.getScore a Blosum62.gapChar = some Blosum62.gapCost
    ∧ Blosum62.getScore Blosum62.gapChar a = some Blosum62.gapCost
    ∧ Blosum62.getScore Blosum62.gapChar Blosum62.gapChar = some 0 := by
  have hsym : ∀ x ∈ Blosum62.alphabet, ∀ y ∈ Blosum62.alphabet,
      Blosum62.getScore x y = Blosum62.getScore y x := by decide
  have hgap : ∀ x ∈ Blosum62.alphabet,
      Blosum62.getScore x Blosum62.gapChar = some Blosum62.gapCost
      ∧ Blosum62.getScore Blosum62.gapChar x = some Blosum62.gapCost := by decide
  exact ⟨hsym a ha b hb, (hgap a ha).1, (hgap a ha).2, by decide⟩

/-- Witness for C8 at the concrete residues `A` and `C`. -/
theorem claim8_score_symmetry_check :
    Blosum62.getScore 'A' 'C' = Blosum62.getScore 'C' 'A'
    ∧ Blosum62.getScore 'A' Blosum62.gapChar = some Blosum62.gapCost
    ∧ Blosum62.getScore Blosum62.gapChar 'A' = some Blosum62.gapCost
    ∧ Blosum62.getScore Blosum62.gapChar Blosum62.gapChar = some 0 :=
  claim8_score_symmetry 'A' 'C' (by decide) (by decide)

/-! ## Claim theorems: builder vertex enumeration -/

/-- C5: the graph file holds exactly `(n1+1)(n2+1)(n3+1)` vertex lines,
one labeled `i,j,k` for every in-range triple, placed at the
nested-ascending-order position with `i` outermost and `k` innermost;
every line before position `(n1+1)(n2+1)(n3+1)` is a vertex line and
every line from that position on is an edge line. -/
theorem claim5_vertex_enumeration (s1 s2 s3 : List Char) :
    ((Builder.buildGraphFileLines s1 s2 s3).length
        = (s1.length + 1) * (s2.length + 1) * (s3.length + 1)
          + (Builder.buildEdges s1 s2 s3).length)
    ∧ (∀ i j k, i ≤ s1.length → j ≤ s2.length → k ≤ s3.length →
        (Builder.buildGraphFileLines s1 s2 s3)[(i * (s2.length + 1) + j) * (s3.length + 1) + k]?
          = some (Builder.vertexLine (i, j, k)))
    ∧ (∀ p, p < (s1.length + 1) * (s2.length + 1) * (s3.length + 1) →
        ∃ v ∈ Builder.buildVertices s1.length s2.length s3.length,
          (Builder.buildGraphFileLines s1 s2 s3)[p]? = some (Builder.vertexLine v))
    ∧ (∀ p l, (s1.length + 1) * (s2.length + 1) * (s3.length + 1) ≤ p →
        (Builder.buildGraphFileLines s1 s2 s3)[p]? = some l →
          ∃ e ∈ Builder.buildEdges s1 s2 s3, l = Builder.edgeLine e) := by
  have hvlen : ((Builder.buildVertices s1.length s2.length s3.length).map
      Builder.vertexLine).length
      = (s1.length + 1) * (s2.length + 1) * (s3.length + 1) := by
    rw [List.length_map, Builder.buildVertices_length]
  refine ⟨?_, ?_, ?_, ?_⟩
  · unfold Builder.buildGraphFileLines
    rw [List.length_append, hvlen, List.length_map]
  · intro i j k h1 h2 h3
    unfold Builder.buildGraphFileLines
    have hidx : (i * (s2.length + 1) + j) * (s3.length + 1) + k
        < (s1.length + 1) * (s2.length + 1) * (s3.length + 1) := by
      have := @Builder.buildVertices_getElem? s1.length s2.length s3.length i j k h1 h2 h3
      by_contra hc
      rw [List.getElem?_eq_none] at this
      · exact Option.noConfusion this
      · rw [Builder.buildVertices_length]; omega
    rw [List.getElem?_append_left (by rw [hvlen]; omega)]
    rw [List.getElem?_map, Builder.buildVertices_getElem? h1 h2 h3]
    rfl
  · intro p hp
    unfold Builder.buildGraphFileLines
    rw [List.getElem?_append_left (by rw [hvlen]; omega)]
    have hp2 : p < (Builder.buildVertices s1.length s2.length s3.length).length := by
      rw [Builder.buildVertices_length]; omega
    rw [List.getElem?_map, List.getElem?_eq_getElem hp2]
    exact ⟨_, List.getElem_mem hp2, rfl⟩
  · intro p l hp hl
    unfold Builder.buildGraphFileLines at hl
    rw [List.getElem?_append_right (by rw [hvlen]; omega)] at hl
    rw [List.getElem?_map] at hl
    cases he : (Builder.buildEdges s1 s2 s3)[p - ((Builder.buildVertices s1.length s2.length
        s3.length).map Builder.vertexLine).length]? with
    | none => rw [he] at hl; exact Option.noConfusion hl
    | some e =>
        rw [he] at hl
        exact ⟨e, List.getElem?_mem he, (Option.some_inj.mp hl).symm⟩

/-- Witness for C5 on concrete sequences of lengths 1, 0, 1: the vertex
`(1, 0, 1)` sits at position 3 of the file. -/
theorem claim5_vertex_enumeration_check :
    (Builder.buildGraphFileLines ['A'] [] ['C'])[3]?
      = some (Builder.vertexLine (1, 0, 1)) := by
  have h := (claim5_vertex_enumeration ['A'] [] ['C']).2.1 1 0 1
    (by decide) (by decide) (by decide)
  simpa using h

/-! ## Claim theorems: builder edge emission at boundary vertices -/

/-- C1 as stated is false: at a vertex where exactly two sequences are
exhausted the builder still emits one edge.  At `(1,1,0)` for three
length-1 sequences (sequences 1 and 2 exhausted, sequence 3 not), the
builder emits the single advance of sequence 3. -/
theorem claim1_counterexample :
    ((1 : Nat) = (['A'] : List Char).length ∧ (1 : Nat) = (['A'] : List Char).length)
    ∧ Builder.outEdges ['A'] ['A'] ['A'] 1 1 0
        = [Builder.mkEdge Blosum62.gapChar Blosum62.gapChar 'A' 1 1 0]
    ∧ Builder.outEdges ['A'] ['A'] ['A'] 1 1 0 ≠ [] := by
  refine ⟨⟨rfl, rfl⟩, by decide, by decide⟩

/-- C1 amended: a vertex with all three sequences exhausted emits no
edges; a vertex with exactly two sequences exhausted emits exactly one
edge, the single advance of the remaining sequence. -/
theorem claim1_amended (s1 s2 s3 : List Char) (i j k : Nat)
    (hi : i ≤ s1.length) (hj : j ≤ s2.length) (hk : k ≤ s3.length)
    (h2 : (i = s1.length ∧ j = s2.length) ∨ (i = s1.length ∧ k = s3.length)
          ∨ (j = s2.length ∧ k = s3.length)) :
    Builder.outEdges s1 s2 s3 i j k =
      if i = s1.length ∧ j = s2.length ∧ k = s3.length then []
      else if i = s1.length ∧ j = s2.length then
        [Builder.mkEdge Blosum62.gapChar Blosum62.gapChar (s3.getD k 'A') i j k]
      else if i = s1.length then
        [Builder.mkEdge Blosum62.gapChar (s2.getD j 'A') Blosum62.gapChar i j k]
      else
        [Builder.mkEdge (s1.getD i 'A') Blosum62.gapChar Blosum62.gapChar i j k] := by
  unfold Builder.outEdges
  rcases h2 with ⟨hi1, hj1⟩ | ⟨hi1, hk1⟩ | ⟨hj1, hk1⟩
  · by_cases hk1 : k = s3.length
    · simp [hi1, hj1, hk1, lt_irrefl]
    · have hklt : k < s3.length := by omega
      simp [hi1, hj1, hk1, hklt, lt_irrefl]
  · by_cases hj1 : j = s2.length
    · simp [hi1, hj1, hk1, lt_irrefl]
    · have hjlt : j < s2.length := by omega
      simp [hi1, hj1, hk1, hjlt, lt_irrefl]
  · by_cases hi1 : i = s1.length
    · simp [hi1, hj1, hk1, lt_irrefl]
    · have hilt : i < s1.length := by omega
      simp [hi1, hj1, hk1, hilt, lt_irrefl]

/-- Witness for amended C1: for three length-1 sequences, the vertex
`(1,1,0)` (two sequences exhausted) emits exactly the single advance of
sequence 3, and the corner `(1,1,1)` emits nothing. -/
theorem claim1_amended_check :
    Builder.outEdges ['A'] ['C'] ['D'] 1 1 0
        = [Builder.mkEdge Blosum62.gapChar Blosum62.gapChar 'D' 1 1 0]
    ∧ Builder.outEdges ['A'] ['C'] ['D'] 1 1 1 = [] := by
  constructor
  · have h := claim1_amended ['A'] ['C'] ['D'] 1 1 0
      (by decide) (by decide) (by decide) (Or.inl ⟨rfl, rfl⟩)
    rw [h]
    decide
  · have h := claim1_amended ['A'] ['C'] ['D'] 1 1 1
      (by decide) (by decide) (by decide) (Or.inl ⟨rfl, rfl⟩)
    rw [h]
    decide

namespace Builder

/-- Shape of every edge emitted at a vertex: it is `mkEdge r1 r2 r3 i j k`
where each label character is either the gap character or the in-range
sequence residue at the current location, and at least one label
character is an in-range sequence residue. -/
lemma mem_outEdges {s1 s2 s3 : List Char} {i j k : Nat} {e : BEdge}
    (he : e ∈ outEdges s1 s2 s3 i j k) :
    ∃ r1 r2 r3, e = mkEdge r1 r2 r3 i j k
      ∧ (r1 = Blosum62.gapChar ∨ (i < s1.length ∧ r1 = s1.getD i 'A'))
      ∧ (r2 = Blosum62.gapChar ∨ (j < s2.length ∧ r2 = s2.getD j 'A'))
      ∧ (r3 = Blosum62.gapChar ∨ (k < s3.length ∧ r3 = s3.getD k 'A'))
      ∧ ((i < s1.length ∧ r1 = s1.getD i 'A') ∨ (j < s2.length ∧ r2 = s2.getD j 'A')
         ∨ (k < s3.length ∧ r3 = s3.getD k 'A')) := by
  unfold outEdges at he
  dsimp only at he
  split at he
  · rename_i hc
    obtain ⟨hc1, hc2, hc3⟩ := hc
    simp only [List.mem_cons, List.not_mem_nil, or_false] at he
    rcases he with h | h | h | h | h | h | h
    · exact ⟨_, _, _, h, Or.inr ⟨hc1, rfl⟩, Or.inl rfl, Or.inl rfl, Or.inl ⟨hc1, rfl⟩⟩
    · exact ⟨_, _, _, h, Or.inl rfl, Or.inr ⟨hc2, rfl⟩, Or.inl rfl, Or.inr (Or.inl ⟨hc2, rfl⟩)⟩
    · exact ⟨_, _, _, h, Or.inl rfl, Or.inl rfl, Or.inr ⟨hc3, rfl⟩, Or.inr (Or.inr ⟨hc3, rfl⟩)⟩
    · exact ⟨_, _, _, h, Or.inr ⟨hc1, rfl⟩, Or.inr ⟨hc2, rfl⟩, Or.inl rfl, Or.inl ⟨hc1, rfl⟩⟩
    · exact ⟨_, _, _, h, Or.inl rfl, Or.inr ⟨hc2, rfl⟩, Or.inr ⟨hc3, rfl⟩, Or.inr (Or.inl ⟨hc2, rfl⟩)⟩
    · exact ⟨_, _, _, h, Or.inr ⟨hc1, rfl⟩, Or.inl rfl, Or.inr ⟨hc3, rfl⟩, Or.inl ⟨hc1, rfl⟩⟩
    · exact ⟨_, _, _, h, Or.inr ⟨hc1, rfl⟩, Or.inr ⟨hc2, rfl⟩, Or.inr ⟨hc3, rfl⟩, Or.inl ⟨hc1, rfl⟩⟩
  · split at he
    · rename_i h1
      simp only [List.mem_append] at he
      rcases he with (h | h) | h
      · split at h
        · rename_i hc2
          simp only [List.mem_singleton] at h
          exact ⟨_, _, _, h, Or.inl rfl, Or.inr ⟨hc2, rfl⟩, Or.inl rfl, Or.inr (Or.inl ⟨hc2, rfl⟩)⟩
        · exact absurd h (List.not_mem_nil e)
      · split at h
        · rename_i hc3
          simp only [List.mem_singleton] at h
          exact ⟨_, _, _, h, Or.inl rfl, Or.inl rfl, Or.inr ⟨hc3, rfl⟩, Or.inr (Or.inr ⟨hc3, rfl⟩)⟩
        · exact absurd h (List.not_mem_nil e)
      · split at h
        · rename_i hc
          simp only [List.mem_singleton] at h
          exact ⟨_, _, _, h, Or.inl rfl, Or.inr ⟨hc.1, rfl⟩, Or.inr ⟨hc.2, rfl⟩,
            Or.inr (Or.inl ⟨hc.1, rfl⟩)⟩
        · exact absurd h (List.not_mem_nil e)
    · split at he
      · simp only [List.mem_append] at he
        rcases he with (h | h) | h
        · split at h
          · rename_i hc1
            simp only [List.mem_singleton] at h
            exact ⟨_, _, _, h, Or.inr ⟨hc1, rfl⟩, Or.inl rfl, Or.inl rfl, Or.inl ⟨hc1, rfl⟩⟩
          · exact absurd h (List.not_mem_nil e)
        · split at h
          · rename_i hc3
            simp only [List.mem_singleton] at h
            exact ⟨_, _, _, h, Or.inl rfl, Or.inl rfl, Or.inr ⟨hc3, rfl⟩, Or.inr (Or.inr ⟨hc3, rfl⟩)⟩
          · exact absurd h (List.not_mem_nil e)
        · split at h
          · rename_i hc
            simp only [List.mem_singleton] at h
            exact ⟨_, _, _, h, Or.inr ⟨hc.1, rfl⟩, Or.inl rfl, Or.inr ⟨hc.2, rfl⟩,
              Or.inl ⟨hc.1, rfl⟩⟩
          · exact absurd h (List.not_mem_nil e)
      · split at he
        · simp only [List.mem_append] at he
          rcases he with (h | h) | h
          · split at h
            · rename_i hc1
              simp only [List.mem_singleton] at h
              exact ⟨_, _, _, h, Or.inr ⟨hc1, rfl⟩, Or.inl rfl, Or.inl rfl, Or.inl ⟨hc1, rfl⟩⟩
            · exact absurd h (List.not_mem_nil e)
          · split at h
            · rename_i hc2
              simp only [List.mem_singleton] at h
              exact ⟨_, _, _, h, Or.inl rfl, Or.inr ⟨hc2, rfl⟩, Or.inl rfl,
                Or.inr (Or.inl ⟨hc2, rfl⟩)⟩
            · exact absurd h (List.not_mem_nil e)
          · split at h
            · rename_i hc
              simp only [List.mem_singleton] at h
              exact ⟨_, _, _, h, Or.inr ⟨hc.1, rfl⟩, Or.inr ⟨hc.2, rfl⟩, Or.inl rfl,
                Or.inl ⟨hc.1, rfl⟩⟩
            · exact absurd h (List.not_mem_nil e)
        · exact absurd he (List.not_mem_nil e)

/-- Every emitted edge arises from `outEdges` at some in-range vertex. -/
lemma mem_buildEdges {s1 s2 s3 : List Char} {e : BEdge}
    (he : e ∈ buildEdges s1 s2 s3) :
    ∃ i j k, e ∈ outEdges s1 s2 s3 i j k := by
  unfold buildEdges at he
  rw [List.mem_flatMap] at he
  obtain ⟨i, _, he⟩ := he
  rw [List.mem_flatMap] at he
  obtain ⟨j, _, he⟩ := he
  rw [List.mem_flatMap] at he
  obtain ⟨k, _, he⟩ := he
  exact ⟨i, j, k, he⟩

end Builder

/-! ## Claim theorems: builder edge shape -/

/-- C6: for gap-free input sequences, every emitted edge goes from
`(i,j,k)` to a destination whose coordinates advance by exactly 1 at
the label positions holding a real residue and stay unchanged at the
positions holding the gap character, and at least one coordinate
strictly increases. -/
theorem claim6_monotonic_advance (s1 s2 s3 : List Char)
    (h1 : Blosum62.gapChar ∉ s1) (h2 : Blosum62.gapChar ∉ s2)
    (h3 : Blosum62.gapChar ∉ s3) :
    ∀ e ∈ Builder.buildEdges s1 s2 s3, ∃ r1 r2 r3 i j k,
      e.label = [r1, r2, r3] ∧ e.src = (i, j, k)
      ∧ e.dst = ((if r1 = Blosum62.gapChar then i else i + 1),
                 (if r2 = Blosum62.gapChar then j else j + 1),
                 (if r3 = Blosum62.gapChar then k else k + 1))
      ∧ (r1 ≠ Blosum62.gapChar ∨ r2 ≠ Blosum62.gapChar ∨ r3 ≠ Blosum62.gapChar) := by
  intro e he
  obtain ⟨i, j, k, he⟩ := Builder.mem_buildEdges he
  obtain ⟨r1, r2, r3, heq, _, _, _, hres⟩ := Builder.mem_outEdges he
  subst heq
  refine ⟨r1, r2, r3, i, j, k, rfl, rfl, rfl, ?_⟩
  rcases hres with ⟨hlt, hr⟩ | ⟨hlt, hr⟩ | ⟨hlt, hr⟩
  · refine Or.inl ?_
    have hmem : s1.getD i 'A' ∈ s1 := by
      rw [List.getD_eq_getElem s1 'A' hlt]
      exact List.getElem_mem hlt
    rw [hr]
    intro hgap
    exact h1 (hgap ▸ hmem)
  · refine Or.inr (Or.inl ?_)
    have hmem : s2.getD j 'A' ∈ s2 := by
      rw [List.getD_eq_getElem s2 'A' hlt]
      exact List.getElem_mem hlt
    rw [hr]
    intro hgap
    exact h2 (hgap ▸ hmem)
  · refine Or.inr (Or.inr ?_)
    have hmem : s3.getD k 'A' ∈ s3 := by
      rw [List.getD_eq_getElem s3 'A' hlt]
      exact List.getElem_mem hlt
    rw [hr]
    intro hgap
    exact h3 (hgap ▸ hmem)

/-- Witness for C6 on the concrete edge advancing sequence 1 at the
origin vertex for sequences `A`, `C`, `D`. -/
theorem claim6_monotonic_advance_check :
    ∃ r1 r2 r3 i j k,
      (Builder.mkEdge 'A' Blosum62.gapChar Blosum62.gapChar 0 0 0).label = [r1, r2, r3]
      ∧ (Builder.mkEdge 'A' Blosum62.gapChar Blosum62.gapChar 0 0 0).src = (i, j, k)
      ∧ (Builder.mkEdge 'A' Blosum62.gapChar Blosum62.gapChar 0 0 0).dst
          = ((if r1 = Blosum62.gapChar then i else i + 1),
             (if r2 = Blosum62.gapChar then j else j + 1),
             (if r3 = Blosum62.gapChar then k else k + 1))
      ∧ (r1 ≠ Blosum62.gapChar ∨ r2 ≠ Blosum62.gapChar ∨ r3 ≠ Blosum62.gapChar) :=
  claim6_monotonic_advance ['A'] ['C'] ['D'] (by decide) (by decide) (by decide)
    (Builder.mkEdge 'A' Blosum62.gapChar Blosum62.gapChar 0 0 0) (by decide)

/-- C10: every emitted edge whose label holds exactly two gap characters
(hence exactly one real residue) has weight `2 * gapCost() = -12`,
independent of the residue and of which sequence advances. -/
theorem claim10_single_advance_weight (s1 s2 s3 : List Char) :
    ∀ e ∈ Builder.buildEdges s1 s2 s3, e.label.count Blosum62.gapChar = 2 →
      e.weight = some (2 * Blosum62.gapCost) ∧ (2 * Blosum62.gapCost : Int) = -12 := by
  intro e he hcount
  refine ⟨?_, by decide⟩
  obtain ⟨i, j, k, he⟩ := Builder.mem_buildEdges he
  obtain ⟨r1, r2, r3, heq, _, _, _, _⟩ := Builder.mem_outEdges he
  subst heq
  simp only [Builder.mkEdge, List.count_cons, List.count_nil] at hcount ⊢
  by_cases g1 : r1 = Blosum62.gapChar <;> by_cases g2 : r2 = Blosum62.gapChar <;>
    by_cases g3 : r3 = Blosum62.gapChar <;>
    simp only [g1, g2, g3, if_pos rfl, beq_self_eq_true, beq_iff_eq, if_true, if_false] at hcount
  · simp [g1, g2, g3] at hcount
  · subst g1; subst g2
    simp [Blosum62.sumOfPairsWeight, Blosum62.getScore, g3, Blosum62.gapCost]
  · subst g1; subst g3
    simp [Blosum62.sumOfPairsWeight, Blosum62.getScore, g2, Blosum62.gapCost]
  · simp [g1, g2, g3] at hcount
  · subst g2; subst g3
    simp [Blosum62.sumOfPairsWeight, Blosum62.getScore, g1, Blosum62.gapCost]
  · simp [g1, g2, g3] at hcount
  · simp [g1, g2, g3] at hcount
  · simp [g1, g2, g3] at hcount

/-- Witness for C10 at the concrete single-advance edge emitted at the
origin for sequences `A`, `C`, empty. -/
theorem claim10_single_advance_weight_check :
    (Builder.mkEdge 'A' Blosum62.gapChar Blosum62.gapChar 0 0 0).weight
        = some (2 * Blosum62.gapCost)
    ∧ (2 * Blosum62.gapCost : Int) = -12 :=
  claim10_single_advance_weight ['A'] ['C'] []
    (Builder.mkEdge 'A' Blosum62.gapChar Blosum62.gapChar 0 0 0) (by decide) (by decide)

/-! ## Claim theorems: engine path reporting -/

/-- C2 is a code bug: `getPath` reverses the collected label string
character by character, so each multi-character edge label comes out
reversed (and the newline separators shift).  On the two-vertex graph
whose winning path is the single edge labeled `AB-`, the reported path
string is `"\n-BA"`: the stored label `AB-` does not appear; its
character-wise reversal does. -/
theorem claim2_label_reversal :
    Gpath.edges.map Engine.EEdge.label = ["AB-"]
    ∧ (Engine.findHighestWeightPath Gpath Engine.initState).hw = some "1"
    ∧ (Engine.findHighestWeightPath Gpath Engine.initState).best "1"
        = some { label := "AB-", startV := "0", endV := "1", weight := 5 }
    ∧ Engine.getPath Gpath (Engine.findHighestWeightPath Gpath Engine.initState) = "\n-BA"
    ∧ "\n-BA" ≠ "AB-" ++ "\n" := by
  refine ⟨rfl, by decide, by decide, by decide, by decide⟩

/-- C3 as stated is false: on `Gce` the end constraint is configured and
no qualifying path reaches the END vertex `B` (its weight stays at the
sentinel), yet `findHighestWeightPath` records `B` as the best terminal
vertex and `resultString` reports it as a found path with the sentinel
score, not as the no-path-found state. -/
theorem claim3_counterexample :
    Gce.endLabel = some "B"
    ∧ (Engine.findHighestWeightPath Gce Engine.initState).hw = some "B"
    ∧ (Engine.findHighestWeightPath Gce Engine.initState).weights "B" = Engine.intMin
    ∧ Engine.resultOf Gce (Engine.findHighestWeightPath Gce Engine.initState)
        = Engine.EngineResult.found Engine.intMin "B" "B" ""
    ∧ Engine.resultOf Gce (Engine.findHighestWeightPath Gce Engine.initState)
        ≠ Engine.EngineResult.noPath := by
  refine ⟨rfl, by decide, by decide, by decide, by decide⟩

/-- C3 amended: the engine reports the no-path-found state exactly when
no best terminal vertex was recorded; whenever a best terminal vertex
is recorded - including an end-constrained end vertex whose weight is
still the unreached sentinel - it is reported as a found path with that
vertex's weight as the score. -/
theorem claim3_amended (g : Engine.WGraph) (st : Engine.DPState) :
    (Engine.resultOf g (Engine.findHighestWeightPath g st) = Engine.EngineResult.noPath
      ↔ (Engine.findHighestWeightPath g st).hw = none)
    ∧ (∀ v, (Engine.findHighestWeightPath g st).hw = some v →
        Engine.resultOf g (Engine.findHighestWeightPath g st)
          = Engine.EngineResult.found
              ((Engine.findHighestWeightPath g st).weights v)
              (Engine.pathStart (Engine.findHighestWeightPath g st).best
                (g.vertices.length + 1) v)
              v
              (Engine.getPath g (Engine.findHighestWeightPath g st))) := by
  constructor
  · cases h : (Engine.findHighestWeightPath g st).hw with
    | none => simp [Engine.resultOf, h]
    | some v => simp [Engine.resultOf, h]
  · intro v h
    simp [Engine.resultOf, h]

/-- Witness for amended C3: on `Gce` the recorded terminal `B` is
reported as a found path with the sentinel score. -/
theorem claim3_amended_check :
    Engine.resultOf Gce (Engine.findHighestWeightPath Gce Engine.initState)
      = Engine.EngineResult.found Engine.intMin "B" "B" "" := by
  have h := (claim3_amended Gce Engine.initState).2 "B" (by decide)
  rw [h]
  decide

/-- C4 is a code bug: `WDAGraph::addEdge` executes
`edgeFrequencies[edge->label] = freqIter->second++`, which writes the
pre-increment value back, so a label seen again keeps frequency 1.
Loading two edges with the same label `A--` leaves the counter at 1,
not at the occurrence count 2. -/
theorem claim4_frequency_stuck :
    (Engine.edgeFrequenciesOf ["A--", "A--"]).lookup "A--" = some 1
    ∧ (["A--", "A--"].count "A--") = 2
    ∧ (Engine.edgeFrequenciesOf ["A--", "A--"]).lookup "A--"
        ≠ some (["A--", "A--"].count "A--") := by
  refine ⟨by decide, by decide, by decide⟩

/-! ## Engine relaxation lemmas -/

namespace Engine

/-- A relaxation step only ever touches the weight and best-edge entry
of the vertex being processed, never the best-terminal vertex or the
start flag, and it never decreases the vertex weight. -/
lemma relaxStep_spec (g : WGraph) (v : String) (st : DPState) (e : EEdge) :
    (relaxStep g v st e).hw = st.hw
    ∧ (relaxStep g v st e).startFound = st.startFound
    ∧ (∀ l, l ≠ v → (relaxStep g v st e).weights l = st.weights l
        ∧ (relaxStep g v st e).best l = st.best l)
    ∧ st.weights v ≤ (relaxStep g v st e).weights v := by
  unfold relaxStep
  split
  · split
    · exact ⟨rfl, rfl, fun l _ => ⟨rfl, rfl⟩, le_refl _⟩
    · split
      · rename_i hgt
        refine ⟨rfl, rfl, fun l hl => ?_, ?_⟩
        · constructor <;> simp [hl]
        · simp only [if_pos rfl]
          exact le_of_lt hgt
      · exact ⟨rfl, rfl, fun l _ => ⟨rfl, rfl⟩, le_refl _⟩
  · exact ⟨rfl, rfl, fun l _ => ⟨rfl, rfl⟩, le_refl _⟩

/-- The edge loop only ever touches the weight and best-edge entry of
the vertex being processed, and never decreases its weight. -/
lemma relaxVertex_spec (g : WGraph) (v : String) (es : List EEdge) :
    ∀ st : DPState,
    (relaxVertex g v es st).hw = st.hw
    ∧ (relaxVertex g v es st).startFound = st.startFound
    ∧ (∀ l, l ≠ v → (relaxVertex g v es st).weights l = st.weights l
        ∧ (relaxVertex g v es st).best l = st.best l)
    ∧ st.weights v ≤ (relaxVertex g v es st).weights v := by
  induction es with
  | nil => exact fun st => ⟨rfl, rfl, fun l _ => ⟨rfl, rfl⟩, le_refl _⟩
  | cons e es ih =>
      intro st
      have hstep := relaxStep_spec g v st e
      have hrest := ih (relaxStep g v st e)
      have hcons : relaxVertex g v (e :: es) st
          = relaxVertex g v es (relaxStep g v st e) := rfl
      rw [hcons]
      refine ⟨hrest.1.trans hstep.1, hrest.2.1.trans hstep.2.1, fun l hl => ?_, ?_⟩
      · exact ⟨(hrest.2.2.1 l hl).1.trans (hstep.2.2.1 l hl).1,
          (hrest.2.2.1 l hl).2.trans (hstep.2.2.1 l hl).2⟩
      · exact le_trans hstep.2.2.2 hrest.2.2.2

/-- Evaluation of the start gate with no start constraint. -/
lemma gateOf_no_constraint {g : WGraph} (hs : g.startLabel = none)
    (st : DPState) (v : String) :
    gateOf g st v
      = some { st with weights := fun l => if l = v then 0 else st.weights l } := by
  simp [gateOf, hs]

/-- Evaluation of the start gate once the start vertex has been found. -/
lemma gateOf_found {g : WGraph} {s : String} (hs : g.startLabel = some s)
    {st : DPState} (hsf : st.startFound = true) (v : String) :
    gateOf g st v = some st := by
  simp [gateOf, hs, hsf]

/-- Evaluation of the start gate at the start vertex. -/
lemma gateOf_at_start {g : WGraph} {s : String} (hs : g.startLabel = some s)
    {st : DPState} (hsf : st.startFound = false) {v : String} (hv : v = s) :
    gateOf g st v
      = some { st with
               weights := fun l => if l = v then 0 else st.weights l,
               hw := some v, startFound := true } := by
  subst hv
  simp [gateOf, hs, hsf]

/-- Evaluation of the start gate before the start vertex: `continue`. -/
lemma gateOf_skip {g : WGraph} {s : String} (hs : g.startLabel = some s)
    {st : DPState} (hsf : st.startFound = false) {v : String} (hv : v ≠ s) :
    gateOf g st v = none := by
  simp [gateOf, hs, hsf, hv]

/-- Evaluation of the end phase with no end constraint, no best
terminal recorded yet. -/
lemma endPhase_none_first {g : WGraph} (hEnd : g.endLabel = none)
    {st2 : DPState} (hhw : st2.hw = none) (v : String) :
    endPhase g st2 v = ({ st2 with hw := some v }, false) := by
  simp [endPhase, hEnd, hhw]

/-- Evaluation of the end phase with no end constraint when the current
vertex strictly beats the recorded best terminal. -/
lemma endPhase_none_gt {g : WGraph} (hEnd : g.endLabel = none)
    {st2 : DPState} {h : String} (hhw : st2.hw = some h) {v : String}
    (hgt : st2.weights v > st2.weights h) :
    endPhase g st2 v = ({ st2 with hw := some v }, false) := by
  simp [endPhase, hEnd, hhw, hgt]

/-- Evaluation of the end phase with no end constraint when the current
vertex does not beat the recorded best terminal. -/
lemma endPhase_none_le {g : WGraph} (hEnd : g.endLabel = none)
    {st2 : DPState} {h : String} (hhw : st2.hw = some h) {v : String}
    (hle : ¬st2.weights v > st2.weights h) :
    endPhase g st2 v = (st2, false) := by
  simp [endPhase, hEnd, hhw, hle]

/-- Evaluation of the end phase at the designated end vertex: record it
and `break`. -/
lemma endPhase_at_end {g : WGraph} {en : String} (hEnd : g.endLabel = some en)
    (st2 : DPState) {v : String} (hv : v = en) :
    endPhase g st2 v = ({ st2 with hw := some v }, true) := by
  subst hv
  simp [endPhase, hEnd]

/-- Evaluation of the end phase under an end constraint away from the
end vertex: no best-terminal update. -/
lemma endPhase_not_end {g : WGraph} {en : String} (hEnd : g.endLabel = some en)
    (st2 : DPState) {v : String} (hv : v ≠ en) :
    endPhase g st2 v = (st2, false) := by
  simp [endPhase, hEnd, hv]

/-- `stepVertex` at a gated (`continue`) vertex. -/
lemma stepVertex_gate_none {g : WGraph} {st : DPState} {v : String}
    (h : gateOf g st v = none) :
    stepVertex g st v = (st, false) := by
  simp [stepVertex, h]

/-- `stepVertex` at a processed vertex: relax then run the end phase. -/
lemma stepVertex_gate_some {g : WGraph} {st st1 : DPState} {v : String}
    (h : gateOf g st v = some st1) :
    stepVertex g st v = endPhase g (relaxVertex g v (adj g v) st1) v := by
  simp [stepVertex, h]

/-- The end phase preserves the best-terminal weight bound when no end
constraint is configured, given the bound for the incoming state. -/
lemma endPhase_inv {g : WGraph} (hEnd : g.endLabel = none)
    (st2 : DPState) (v : String)
    (hN1 : st2.hw = none → (0 : Int) ≤ st2.weights v)
    (hN2 : ∀ h, st2.hw = some h → (0 : Int) ≤ st2.weights h) :
    (∀ u, (endPhase g st2 v).1.hw = some u → 0 ≤ (endPhase g st2 v).1.weights u)
    ∧ ((endPhase g st2 v).1.startFound = true → (endPhase g st2 v).1.hw ≠ none) := by
  cases hh : st2.hw with
  | none =>
      rw [endPhase_none_first hEnd hh v]
      refine ⟨fun u hu => ?_, fun _ => by simp⟩
      have hu2 : some v = some u := hu
      obtain rfl : v = u := by simpa using hu2
      exact hN1 hh
  | some h =>
      by_cases hgt : st2.weights v > st2.weights h
      · rw [endPhase_none_gt hEnd hh hgt]
        refine ⟨fun u hu => ?_, fun _ => by simp⟩
        have hu2 : some v = some u := hu
        obtain rfl : v = u := by simpa using hu2
        have h0 := hN2 h hh
        have hgoal : (0 : Int) ≤ st2.weights v := by omega
        exact hgoal
      · rw [endPhase_none_le hEnd hh hgt]
        refine ⟨fun u hu => ?_, fun _ => by show st2.hw ≠ none; rw [hh]; simp⟩
        have hu2 : st2.hw = some u := hu
        rw [hh] at hu2
        obtain rfl : h = u := by simpa using hu2
        exact hN2 h hh

/-- The best-terminal invariant of the vertex loop when no end
constraint is configured: a recorded best terminal vertex always has a
nonnegative (hence non-sentinel) weight, and once the start vertex has
been found a best terminal vertex is recorded. -/
lemma stepVertex_inv (g : WGraph) (hEnd : g.endLabel = none)
    (st : DPState) (v : String)
    (hInv1 : ∀ u, st.hw = some u → 0 ≤ st.weights u)
    (hInv2 : st.startFound = true → st.hw ≠ none) :
    (∀ u, (stepVertex g st v).1.hw = some u → 0 ≤ (stepVertex g st v).1.weights u)
    ∧ ((stepVertex g st v).1.startFound = true → (stepVertex g st v).1.hw ≠ none) := by
  cases hs : g.startLabel with
  | none =>
      rw [stepVertex_gate_some (gateOf_no_constraint hs st v)]
      have hspec := relaxVertex_spec g v (adj g v)
        { st with weights := fun l => if l = v then 0 else st.weights l }
      refine endPhase_inv hEnd _ v ?_ ?_
      · intro _
        have hm := hspec.2.2.2
        simp at hm
        omega
      · intro h hh
        rw [hspec.1] at hh
        have hsw : st.hw = some h := hh
        by_cases hhv : h = v
        · rw [hhv]
          have hm := hspec.2.2.2
          simp at hm
          omega
        · rw [(hspec.2.2.1 h hhv).1]
          simpa [hhv] using hInv1 h hsw
  | some s =>
      cases hsf : st.startFound with
      | true =>
          rw [stepVertex_gate_some (gateOf_found hs hsf v)]
          have hspec := relaxVertex_spec g v (adj g v) st
          refine endPhase_inv hEnd _ v ?_ ?_
          · intro hnone
            rw [hspec.1] at hnone
            exact absurd hnone (hInv2 hsf)
          · intro h hh
            rw [hspec.1] at hh
            by_cases hhv : h = v
            · have h0 := hInv1 h hh
              have hm := hspec.2.2.2
              rw [hhv] at h0
              rw [hhv]
              omega
            · rw [(hspec.2.2.1 h hhv).1]
              exact hInv1 h hh
      | false =>
          by_cases hv : v = s
          · rw [stepVertex_gate_some (gateOf_at_start hs hsf hv)]
            have hspec := relaxVertex_spec g v (adj g v)
              { st with
                weights := fun l => if l = v then 0 else st.weights l,
                hw := some v, startFound := true }
            have hm := hspec.2.2.2
            simp at hm
            refine endPhase_inv hEnd _ v ?_ ?_
            · intro _
              omega
            · intro h hh
              rw [hspec.1] at hh
              have hh2 : some v = some h := hh
              obtain rfl : v = h := by simpa using hh2
              omega
          · rw [stepVertex_gate_none (gateOf_skip hs hsf hv)]
            exact ⟨hInv1, fun h => absurd (hsf ▸ h) (by simp)⟩

/-- The vertex loop preserves the best-terminal invariant when no end
constraint is configured. -/
lemma runVertices_inv (g : WGraph) (hEnd : g.endLabel = none) :
    ∀ (l : List String) (st : DPState),
      (∀ u, st.hw = some u → 0 ≤ st.weights u) →
      (st.startFound = true → st.hw ≠ none) →
      ∀ u, (runVertices g l st).hw = some u → 0 ≤ (runVertices g l st).weights u := by
  intro l
  induction l with
  | nil => intro st h1 _ u hu; exact h1 u hu
  | cons v rest ih =>
      intro st h1 h2 u hu
      have hstep := stepVertex_inv g hEnd st v h1 h2
      unfold runVertices at hu ⊢
      dsimp only at hu ⊢
      by_cases hbrk : (stepVertex g st v).2 = true
      · rw [if_pos hbrk] at hu ⊢
        exact hstep.1 u hu
      · rw [if_neg hbrk] at hu ⊢
        exact ih (stepVertex g st v).1 hstep.1 hstep.2 u hu

end Engine

/-! ## Claim theorems: unreached vertices and the best terminal -/

/-- C7 as stated is false for the end-constrained configuration: on
`Gce` the end vertex `B` is recorded as the best terminal vertex even
though its weight is still the unreached sentinel. -/
theorem claim7_counterexample :
    Gce.endLabel.isSome = true
    ∧ (Engine.findHighestWeightPath Gce Engine.initState).hw = some "B"
    ∧ (Engine.findHighestWeightPath Gce Engine.initState).weights "B"
        = Engine.intMin := by
  refine ⟨rfl, by decide, by decide⟩

/-- C7 amended: when no end constraint is configured (both the
unconstrained and the start-constrained configurations), a vertex whose
weight is still the unreached sentinel is never recorded as the best
terminal vertex after `findHighestWeightPath`; the recorded terminal
always has weight at least 0.  Under an end constraint the designated
end vertex is recorded regardless of its weight. -/
theorem claim7_amended (g : Engine.WGraph) (hEnd : g.endLabel = none) :
    ∀ v, (Engine.findHighestWeightPath g Engine.initState).hw = some v →
      0 ≤ (Engine.findHighestWeightPath g Engine.initState).weights v
      ∧ (Engine.findHighestWeightPath g Engine.initState).weights v ≠ Engine.intMin := by
  intro v hv
  unfold Engine.findHighestWeightPath at hv ⊢
  have h := Engine.runVertices_inv g hEnd g.vertices _
    (fun u hu => by simp [Engine.initState] at hu)
    (fun hf => by simp [Engine.initState] at hf)
    v hv
  refine ⟨h, fun heq => ?_⟩
  rw [heq] at h
  exact absurd h (by decide)

/-- Witness for amended C7: on the unconstrained two-vertex graph the
recorded terminal has nonnegative, non-sentinel weight. -/
theorem claim7_amended_check :
    0 ≤ (Engine.findHighestWeightPath Gpath Engine.initState).weights "1"
    ∧ (Engine.findHighestWeightPath Gpath Engine.initState).weights "1"
        ≠ Engine.intMin :=
  claim7_amended Gpath rfl "1" (by decide)

/-! ## Engine lemmas for the idempotence of the traversal -/

namespace Engine

/-- `runB` computes the state of the vertex loop. -/
lemma runB_fst (g : WGraph) :
    ∀ (l : List String) (st : DPState), (runB g l st).1 = runVertices g l st := by
  intro l
  induction l with
  | nil => intro st; rfl
  | cons v rest ih =>
      intro st
      unfold runB runVertices
      dsimp only
      by_cases hbrk : (stepVertex g st v).2 = true
      · rw [if_pos hbrk, if_pos hbrk]
      · rw [if_neg hbrk, if_neg hbrk]
        exact ih (stepVertex g st v).1

/-- The end phase never touches the weights, best edges or start flag. -/
lemma endPhase_fields (g : WGraph) (st2 : DPState) (v : String) :
    (endPhase g st2 v).1.weights = st2.weights
    ∧ (endPhase g st2 v).1.best = st2.best
    ∧ (endPhase g st2 v).1.startFound = st2.startFound := by
  cases he : g.endLabel with
  | some en =>
      by_cases hv : v = en
      · rw [endPhase_at_end he st2 hv]
        exact ⟨rfl, rfl, rfl⟩
      · rw [endPhase_not_end he st2 hv]
        exact ⟨rfl, rfl, rfl⟩
  | none =>
      cases hh : st2.hw with
      | none =>
          rw [endPhase_none_first he hh v]
          exact ⟨rfl, rfl, rfl⟩
      | some h =>
          by_cases hgt : st2.weights v > st2.weights h
          · rw [endPhase_none_gt he hh hgt]
            exact ⟨rfl, rfl, rfl⟩
          · rw [endPhase_none_le he hh hgt]
            exact ⟨rfl, rfl, rfl⟩

/-- Without an end constraint the vertex loop never `break`s. -/
lemma endPhase_nobreak {g : WGraph} (hE : g.endLabel = none)
    (st2 : DPState) (v : String) :
    (endPhase g st2 v).2 = false := by
  cases hh : st2.hw with
  | none => rw [endPhase_none_first hE hh v]
  | some h =>
      by_cases hgt : st2.weights v > st2.weights h
      · rw [endPhase_none_gt hE hh hgt]
      · rw [endPhase_none_le hE hh hgt]

/-- Without an end constraint, the end phase records some best terminal
vertex. -/
lemma endPhase_hw_isSome {g : WGraph} (hE : g.endLabel = none)
    (st2 : DPState) (v : String) :
    ∃ h, (endPhase g st2 v).1.hw = some h := by
  cases hh : st2.hw with
  | none => rw [endPhase_none_first hE hh v]; exact ⟨v, rfl⟩
  | some h =>
      by_cases hgt : st2.weights v > st2.weights h
      · rw [endPhase_none_gt hE hh hgt]; exact ⟨v, rfl⟩
      · rw [endPhase_none_le hE hh hgt]; exact ⟨h, hh⟩

/-- A loop iteration only ever touches the weight and best-edge entry
of the vertex it processes. -/
lemma stepVertex_keys (g : WGraph) (st : DPState) (v : String) :
    ∀ l, l ≠ v → (stepVertex g st v).1.weights l = st.weights l
      ∧ (stepVertex g st v).1.best l = st.best l := by
  intro l hl
  cases hgate : gateOf g st v with
  | none =>
      rw [stepVertex_gate_none hgate]
      exact ⟨rfl, rfl⟩
  | some st1 =>
      rw [stepVertex_gate_some hgate]
      have hfields := endPhase_fields g (relaxVertex g v (adj g v) st1) v
      have hspec := relaxVertex_spec g v (adj g v) st1
      have hst1 : st1.weights l = st.weights l ∧ st1.best l = st.best l := by
        unfold gateOf at hgate
        cases hs : g.startLabel with
        | none =>
            rw [hs] at hgate
            simp only [Option.some_inj] at hgate
            rw [← hgate]
            simp [hl]
        | some s =>
            rw [hs] at hgate
            by_cases hsf : st.startFound = true
            · simp only [hsf, if_true] at hgate
              simp only [Option.some_inj] at hgate
              rw [← hgate]
              exact ⟨rfl, rfl⟩
            · have hsf2 : st.startFound = false := by
                cases hx : st.startFound
                · rfl
                · exact absurd hx hsf
              simp only [hsf2, Bool.false_eq_true, if_false] at hgate
              by_cases hv : v = s
              · simp only [if_pos hv, Option.some_inj] at hgate
                rw [← hgate]
                simp [hl]
              · simp only [if_neg hv] at hgate
                exact Option.noConfusion hgate
      rw [hfields.1, hfields.2.1, (hspec.2.2.1 l hl).1, (hspec.2.2.1 l hl).2]
      exact hst1

/-- The loop only ever touches weights and best edges of the vertices
it still has to visit. -/
lemma runB_keys (g : WGraph) :
    ∀ (lis : List String) (st : DPState) (l : String), l ∉ lis →
      (runB g lis st).1.weights l = st.weights l
      ∧ (runB g lis st).1.best l = st.best l := by
  intro lis
  induction lis with
  | nil => intro st l _; exact ⟨rfl, rfl⟩
  | cons v rest ih =>
      intro st l hl
      have hlv : l ≠ v := fun h => hl (h ▸ List.mem_cons_self v rest)
      have hlr : l ∉ rest := fun h => hl (List.mem_cons_of_mem v h)
      have hstep := stepVertex_keys g st v l hlv
      unfold runB
      dsimp only
      by_cases hbrk : (stepVertex g st v).2 = true
      · rw [if_pos hbrk]
        exact hstep
      · rw [if_neg hbrk]
        have hrest := ih (stepVertex g st v).1 l hlr
        exact ⟨hrest.1.trans hstep.1, hrest.2.trans hstep.2⟩

/-- A recorded best terminal vertex persists through the rest of the
loop when no end constraint is configured. -/
lemma runB_hw_persist (g : WGraph) (hE : g.endLabel = none) :
    ∀ (lis : List String) (st : DPState), st.hw ≠ none →
      (runB g lis st).1.hw ≠ none := by
  intro lis
  induction lis with
  | nil => intro st h; exact h
  | cons v rest ih =>
      intro st h
      have hstep : (stepVertex g st v).1.hw ≠ none := by
        cases hgate : gateOf g st v with
        | none => rw [stepVertex_gate_none hgate]; exact h
        | some st1 =>
            rw [stepVertex_gate_some hgate]
            obtain ⟨h2, hh2⟩ :=
              endPhase_hw_isSome hE (relaxVertex g v (adj g v) st1) v
            rw [hh2]
            simp
      unfold runB
      dsimp only
      by_cases hbrk : (stepVertex g st v).2 = true
      · rw [if_pos hbrk]
        exact hstep
      · rw [if_neg hbrk]
        exact ih (stepVertex g st v).1 hstep

/-- A relaxation step over an edge that does not end at the processed
vertex is the identity. -/
lemma relaxStep_not_end {g : WGraph} {v : String} (st : DPState) {e : EEdge}
    (h : ¬e.endV = v) : relaxStep g v st e = st := by
  unfold relaxStep
  rw [if_neg h]

/-- A relaxation step over a skipped edge (start constraint active and
the edge's start vertex unreached) is the identity. -/
lemma relaxStep_skip {g : WGraph} {v : String} (st : DPState) (e : EEdge)
    (hskip : g.startLabel.isSome ∧ st.weights e.startV = intMin) :
    relaxStep g v st e = st := by
  unfold relaxStep
  by_cases h : e.endV = v
  · rw [if_pos h, if_pos hskip]
  · rw [if_neg h]

/-- A relaxation step whose candidate does not beat the current weight
is the identity. -/
lemma relaxStep_le {g : WGraph} {v : String} (st : DPState) (e : EEdge)
    (hle : ¬st.weights e.startV + e.weight > st.weights v) :
    relaxStep g v st e = st := by
  unfold relaxStep
  by_cases h : e.endV = v
  · rw [if_pos h]
    by_cases hskip : g.startLabel.isSome ∧ st.weights e.startV = intMin
    · rw [if_pos hskip]
    · rw [if_neg hskip, if_neg hle]
  · rw [if_neg h]

/-- A relaxation step with a strictly better candidate updates the
weight and best edge of the processed vertex. -/
lemma relaxStep_gt {g : WGraph} {v : String} (st : DPState) (e : EEdge)
    (hend : e.endV = v)
    (hskip : ¬(g.startLabel.isSome ∧ st.weights e.startV = intMin))
    (hgt : st.weights e.startV + e.weight > st.weights v) :
    relaxStep g v st e
      = { st with
          weights := fun l => if l = v then st.weights e.startV + e.weight
                              else st.weights l,
          best := fun l => if l = v then some e else st.best l } := by
  unfold relaxStep
  rw [if_pos hend, if_neg hskip, if_pos hgt]

/-- When every single relaxation step is the identity, the edge loop is
the identity. -/
lemma relaxVertex_fixed {g : WGraph} {v : String} :
    ∀ (es : List EEdge) (st : DPState),
      (∀ e ∈ es, relaxStep g v st e = st) → relaxVertex g v es st = st := by
  intro es
  induction es with
  | nil => intro st _; rfl
  | cons e es ih =>
      intro st hfix
      have hcons : relaxVertex g v (e :: es) st
          = relaxVertex g v es (relaxStep g v st e) := rfl
      rw [hcons, hfix e (List.mem_cons_self e es)]
      exact ih st fun e2 he2 => hfix e2 (List.mem_cons_of_mem e he2)

/-- After the edge loop, the weight of the processed vertex is at least
every non-skipped candidate (when no considered edge starts at the
processed vertex itself). -/
lemma relaxVertex_bound {g : WGraph} {v : String} :
    ∀ (es : List EEdge) (st : DPState),
      (∀ e ∈ es, e.endV = v → e.startV ≠ v) →
      ∀ e ∈ es, e.endV = v →
        ¬(g.startLabel.isSome ∧ st.weights e.startV = intMin) →
        st.weights e.startV + e.weight ≤ (relaxVertex g v es st).weights v := by
  intro es
  induction es with
  | nil => intro st _ e he; exact absurd he (List.not_mem_nil e)
  | cons e0 es ih =>
      intro st hnv e he hend hnskip
      have hcons : relaxVertex g v (e0 :: es) st
          = relaxVertex g v es (relaxStep g v st e0) := rfl
      have hspec0 := relaxStep_spec g v st e0
      have hspecRest := relaxVertex_spec g v es (relaxStep g v st e0)
      rcases List.mem_cons.mp he with rfl | hmem
      · -- the candidate of the head edge
        rw [hcons]
        by_cases hgt : st.weights e.startV + e.weight > st.weights v
        · rw [relaxStep_gt st e hend hnskip hgt]
          have hafter :
              ({ st with
                 weights := fun l => if l = v then st.weights e.startV + e.weight
                            else st.weights l,
                 best := fun l => if l = v then some e else st.best l }
                : DPState).weights v = st.weights e.startV + e.weight := by
            simp
          rw [relaxStep_gt st e hend hnskip hgt] at hspecRest
          calc st.weights e.startV + e.weight
              = ({ st with
                   weights := fun l => if l = v then st.weights e.startV + e.weight
                              else st.weights l,
                   best := fun l => if l = v then some e else st.best l }
                  : DPState).weights v := hafter.symm
            _ ≤ _ := hspecRest.2.2.2
        · rw [relaxStep_le st e hgt]
          have hmono := (relaxVertex_spec g v es st).2.2.2
          omega
      · -- a candidate of the tail: the head step does not change the
        -- start weight of a tail edge ending at v
        rw [hcons]
        have hsv : e.startV ≠ v := hnv e he hend
        have hkeep : (relaxStep g v st e0).weights e.startV = st.weights e.startV :=
          (hspec0.2.2.1 e.startV hsv).1
        have hnskip2 : ¬(g.startLabel.isSome
            ∧ (relaxStep g v st e0).weights e.startV = intMin) := by
          rw [hkeep]
          exact hnskip
        have hb := ih (relaxStep g v st e0)
          (fun e2 he2 hend2 => hnv e2 (List.mem_cons_of_mem e0 he2) hend2)
          e hmem hend hnskip2
        rw [hkeep] at hb
        exact hb

/-- Two edge-loop runs from states that agree on the processed vertex
weight and on all candidate start weights make the same updates: the
final weights at the processed vertex agree, and the final best edges
at the processed vertex either agree or are both untouched. -/
lemma relaxVertex_sim {g : WGraph} {v : String} :
    ∀ (es : List EEdge) (stA stB : DPState),
      (∀ e ∈ es, e.endV = v → e.startV ≠ v) →
      (∀ e ∈ es, e.endV = v → stA.weights e.startV = stB.weights e.startV) →
      stA.weights v = stB.weights v →
      (relaxVertex g v es stA).weights v = (relaxVertex g v es stB).weights v
      ∧ ((relaxVertex g v es stA).best v = (relaxVertex g v es stB).best v
         ∨ ((relaxVertex g v es stA).best v = stA.best v
            ∧ (relaxVertex g v es stB).best v = stB.best v)) := by
  intro es
  induction es with
  | nil => intro stA stB _ _ hv0; exact ⟨hv0, Or.inr ⟨rfl, rfl⟩⟩
  | cons e es ih =>
      intro stA stB hnv hpred hv0
      have hconsA : relaxVertex g v (e :: es) stA
          = relaxVertex g v es (relaxStep g v stA e) := rfl
      have hconsB : relaxVertex g v (e :: es) stB
          = relaxVertex g v es (relaxStep g v stB e) := rfl
      rw [hconsA, hconsB]
      by_cases hend : e.endV = v
      · have hsv : e.startV ≠ v := hnv e (List.mem_cons_self e es) hend
        have hpe := hpred e (List.mem_cons_self e es) hend
        have hpred2 : ∀ e2 ∈ es, e2.endV = v →
            (relaxStep g v stA e).weights e2.startV
              = (relaxStep g v stB e).weights e2.startV := by
          intro e2 he2 hend2
          have hsv2 : e2.startV ≠ v := hnv e2 (List.mem_cons_of_mem e he2) hend2
          rw [((relaxStep_spec g v stA e).2.2.1 e2.startV hsv2).1,
            ((relaxStep_spec g v stB e).2.2.1 e2.startV hsv2).1]
          exact hpred e2 (List.mem_cons_of_mem e he2) hend2
        have hnv2 : ∀ e2 ∈ es, e2.endV = v → e2.startV ≠ v :=
          fun e2 he2 hend2 => hnv e2 (List.mem_cons_of_mem e he2) hend2
        by_cases hskip : g.startLabel.isSome ∧ stA.weights e.startV = intMin
        · have hskipB : g.startLabel.isSome ∧ stB.weights e.startV = intMin := by
            rw [← hpe]
            exact hskip
          rw [relaxStep_skip stA e hskip, relaxStep_skip stB e hskipB]
          exact ih stA stB hnv2 (by
            intro e2 he2 hend2
            rw [relaxStep_skip stA e hskip, relaxStep_skip stB e hskipB] at hpred2
            exact hpred2 e2 he2 hend2) hv0
        · have hskipB : ¬(g.startLabel.isSome ∧ stB.weights e.startV = intMin) := by
            rw [← hpe]
            exact hskip
          by_cases hgt : stA.weights e.startV + e.weight > stA.weights v
          · have hgtB : stB.weights e.startV + e.weight > stB.weights v := by
              rw [← hpe, ← hv0]
              exact hgt
            rw [relaxStep_gt stA e hend hskip hgt, relaxStep_gt stB e hend hskipB hgtB]
            have hres := ih
              { stA with
                weights := fun l => if l = v then stA.weights e.startV + e.weight
                           else stA.weights l,
                best := fun l => if l = v then some e else stA.best l }
              { stB with
                weights := fun l => if l = v then stB.weights e.startV + e.weight
                           else stB.weights l,
                best := fun l => if l = v then some e else stB.best l }
              hnv2 (by
                intro e2 he2 hend2
                have hsv2 : e2.startV ≠ v := hnv2 e2 he2 hend2
                have hp := hpred e2 (List.mem_cons_of_mem e he2) hend2
                simp [hsv2, hp]) (by simp [hpe])
            refine ⟨hres.1, ?_⟩
            rcases hres.2 with heq | ⟨huA, huB⟩
            · exact Or.inl heq
            · refine Or.inl ?_
              rw [huA, huB]
              show (if v = v then some e else stA.best v)
                  = (if v = v then some e else stB.best v)
              simp
          · have hgtB : ¬(stB.weights e.startV + e.weight > stB.weights v) := by
              rw [← hpe, ← hv0]
              exact hgt
            rw [relaxStep_le stA e hgt, relaxStep_le stB e hgtB]
            exact ih stA stB hnv2
              (fun e2 he2 hend2 => hpred e2 (List.mem_cons_of_mem e he2) hend2) hv0
      · rw [relaxStep_not_end stA hend, relaxStep_not_end stB hend]
        exact ih stA stB
          (fun e2 he2 hend2 => hnv e2 (List.mem_cons_of_mem e he2) hend2)
          (fun e2 he2 hend2 => hpred e2 (List.mem_cons_of_mem e he2) hend2) hv0

/-- Edges in an adjacency list come from the graph's edge list. -/
lemma mem_adj {g : WGraph} {v : String} {e : EEdge} (he : e ∈ adj g v) :
    e ∈ g.edges := by
  unfold adj at he
  rw [List.mem_flatMap] at he
  obtain ⟨e2, he2, hm⟩ := he
  rw [List.mem_append] at hm
  rcases hm with hm | hm
  · split at hm
    · obtain rfl : e = e2 := List.mem_singleton.mp hm
      exact he2
    · exact absurd hm (List.not_mem_nil e)
  · split at hm
    · obtain rfl : e = e2 := List.mem_singleton.mp hm
      exact he2
    · exact absurd hm (List.not_mem_nil e)

/-- In a depth-ordered graph, every edge into the vertex at the head of
the remaining suffix starts at an already processed vertex. -/
lemma edges_into_head {g : WGraph} {pre suf : List String} {v : String}
    (hT : ∀ e ∈ g.edges, e.endV ∈ g.vertices
        ∧ g.vertices.indexOf e.startV < g.vertices.indexOf e.endV)
    (hN : g.vertices.Nodup) (hsplit : g.vertices = pre ++ v :: suf) :
    ∀ e ∈ g.edges, e.endV = v → e.startV ∈ pre ∧ e.startV ≠ v := by
  intro e he hend
  obtain ⟨_, hlt⟩ := hT e he
  have hNs : (pre ++ v :: suf).Nodup := hsplit ▸ hN
  have hparts := List.nodup_append.mp hNs
  have hvpre : v ∉ pre := fun hv =>
    hparts.2.2 hv (List.mem_cons_self v suf)
  have hidxv : g.vertices.indexOf v = pre.length := by
    rw [hsplit, List.indexOf_append_of_not_mem hvpre]
    simp
  rw [hend, hidxv] at hlt
  have hlenfull : pre.length < g.vertices.length := by
    rw [hsplit]
    simp
  have hmemS : e.startV ∈ g.vertices :=
    List.indexOf_lt_length.mp (lt_trans hlt hlenfull)
  have hidxlt : g.vertices.indexOf e.startV < g.vertices.length :=
    List.indexOf_lt_length.mpr hmemS
  have hget : g.vertices[g.vertices.indexOf e.startV] = e.startV :=
    List.getElem_indexOf hidxlt
  have hpre : e.startV ∈ pre := by
    have hidxpre : g.vertices.indexOf e.startV < pre.length := hlt
    have hq : g.vertices[g.vertices.indexOf e.startV]? = some e.startV := by
      rw [List.getElem?_eq_getElem hidxlt, hget]
    rw [hsplit] at hidxpre hq
    rw [List.getElem?_append_left hidxpre] at hq
    exact List.getElem?_mem hq
  refine ⟨hpre, fun hsv => ?_⟩
  rw [hsv, hidxv] at hlt
  exact lt_irrefl _ hlt

/-- Shape of the state produced by the start gate: the best map is
untouched, other weights are untouched, and the best-terminal/flag
fields change only in the start-vertex case. -/
lemma gateOf_shape {g : WGraph} {st st1 : DPState} {v : String}
    (h : gateOf g st v = some st1) :
    st1.best = st.best
    ∧ (∀ l, l ≠ v → st1.weights l = st.weights l)
    ∧ (st1.hw = st.hw
       ∨ (st1.hw = some v ∧ g.startLabel.isSome = true ∧ st.startFound = false))
    ∧ (st1.startFound = st.startFound ∨ st1.startFound = true)
    ∧ (st1.weights v = 0 ∨ (st1 = st ∧ st.startFound = true))
    ∧ (g.startLabel.isSome = true → st1.startFound = true) := by
  unfold gateOf at h
  cases hs : g.startLabel with
  | none =>
      rw [hs] at h
      simp only [Option.some_inj] at h
      rw [← h]
      refine ⟨rfl, fun l hl => by simp [hl], Or.inl rfl, Or.inl rfl, Or.inl (by simp),
        fun hiss => by simp at hiss⟩
  | some s =>
      rw [hs] at h
      by_cases hsf : st.startFound = true
      · simp only [hsf, if_true, Option.some_inj] at h
        rw [← h]
        exact ⟨rfl, fun l _ => rfl, Or.inl rfl, Or.inl rfl, Or.inr ⟨rfl, hsf⟩,
          fun _ => hsf⟩
      · have hsf2 : st.startFound = false := by
          cases hx : st.startFound
          · rfl
          · exact absurd hx hsf
        simp only [hsf2, Bool.false_eq_true, if_false] at h
        by_cases hv : v = s
        · simp only [if_pos hv, Option.some_inj] at h
          rw [← h]
          refine ⟨rfl, fun l hl => by simp [hl], ?_, Or.inr rfl, Or.inl (by simp),
            fun _ => rfl⟩
          exact Or.inr ⟨rfl, rfl, hsf2⟩
        · simp only [if_neg hv] at h
          exact Option.noConfusion h

/-- Without an end constraint, the end phase records a best terminal
vertex whose weight dominates both the processed vertex and any
previously recorded best terminal. -/
lemma endPhase_step4 {g : WGraph} (hE : g.endLabel = none)
    (st2 : DPState) (v : String) :
    ∃ h2, (endPhase g st2 v).1.hw = some h2
      ∧ st2.weights v ≤ st2.weights h2
      ∧ (∀ h0, st2.hw = some h0 → st2.weights h0 ≤ st2.weights h2)
      ∧ (h2 = v ∨ st2.hw = some h2) := by
  cases hh : st2.hw with
  | none =>
      rw [endPhase_none_first hE hh v]
      exact ⟨v, rfl, le_refl _, fun h0 hh0 => Option.noConfusion hh0, Or.inl rfl⟩
  | some h =>
      by_cases hgt : st2.weights v > st2.weights h
      · rw [endPhase_none_gt hE hh hgt]
        refine ⟨v, rfl, le_refl _, fun h0 hh0 => ?_, Or.inl rfl⟩
        obtain rfl : h = h0 := by simpa using hh0
        omega
      · rw [endPhase_none_le hE hh hgt]
        refine ⟨h, hh, by omega, fun h0 hh0 => ?_, Or.inr rfl⟩
        obtain rfl : h = h0 := by simpa using hh0
        exact le_refl _

/-- Without an end constraint, after the whole vertex loop the recorded
best terminal vertex has maximal weight: it dominates the previously
recorded terminal and every vertex of the remaining suffix. -/
lemma runB_hw_max (g : WGraph) (hE : g.endLabel = none) :
    ∀ (suf : List String) (σ : DPState),
      suf.Nodup →
      (∀ h, σ.hw = some h → h ∉ suf) →
      (∀ u, σ.hw = some u → 0 ≤ σ.weights u) →
      (σ.startFound = true → σ.hw ≠ none) →
      (g.startLabel.isSome = true → σ.startFound = false → σ.hw = none) →
      (∀ u ∈ suf, σ.weights u = intMin) →
      (∀ h0 H, σ.hw = some h0 → (runB g suf σ).1.hw = some H →
          (runB g suf σ).1.weights h0 ≤ (runB g suf σ).1.weights H)
      ∧ (∀ H, (runB g suf σ).1.hw = some H →
          ∀ u ∈ suf, (runB g suf σ).1.weights u ≤ (runB g suf σ).1.weights H) := by
  intro suf
  induction suf with
  | nil =>
      intro σ _ _ _ _ _ _
      constructor
      · intro h0 H h1 h2
        have h2b : σ.hw = some H := h2
        rw [h1] at h2b
        obtain rfl : h0 = H := by simpa using h2b
        exact le_refl _
      · intro H _ u hu
        exact absurd hu (List.not_mem_nil u)
  | cons v suf2 ih =>
      intro σ hNd hout hInv1 hInv2 hb hw0
      have hvs : v ∉ suf2 := (List.nodup_cons.mp hNd).1
      have hNd2 : suf2.Nodup := (List.nodup_cons.mp hNd).2
      have hbrk : (stepVertex g σ v).2 = false := by
        cases hgate : gateOf g σ v with
        | none => rw [stepVertex_gate_none hgate]
        | some st1 =>
            rw [stepVertex_gate_some hgate]
            exact endPhase_nobreak hE _ v
      have hrun : runB g (v :: suf2) σ = runB g suf2 (stepVertex g σ v).1 := by
        have h1 : runB g (v :: suf2) σ
            = if (stepVertex g σ v).2 = true then ((stepVertex g σ v).1, true)
              else runB g suf2 (stepVertex g σ v).1 := rfl
        rw [h1, if_neg (by rw [hbrk]; simp)]
      have hInvStep := stepVertex_inv g hE σ v hInv1 hInv2
      have hw02 : ∀ u ∈ suf2, (stepVertex g σ v).1.weights u = intMin := by
        intro u hu
        have huv : u ≠ v := fun h => hvs (h ▸ hu)
        rw [(stepVertex_keys g σ v u huv).1]
        exact hw0 u (List.mem_cons_of_mem v hu)
      have hfin0 : ∀ u, (runB g suf2 (stepVertex g σ v).1).1.hw = some u →
          0 ≤ (runB g suf2 (stepVertex g σ v).1).1.weights u := by
        intro u hu
        rw [runB_fst] at hu ⊢
        exact runVertices_inv g hE suf2 (stepVertex g σ v).1
          hInvStep.1 hInvStep.2 u hu
      cases hgate : gateOf g σ v with
      | none =>
          -- continue: state unchanged
          have hσ2 : (stepVertex g σ v).1 = σ := by
            rw [stepVertex_gate_none hgate]
          have hb2 : g.startLabel.isSome = true →
              σ.startFound = false → σ.hw = none := hb
          have hout2 : ∀ h, σ.hw = some h → h ∉ suf2 := by
            intro h hh
            exact fun hmem => hout h hh (List.mem_cons_of_mem v hmem)
          have hrec := ih σ hNd2 hout2 hInv1 hInv2 hb2
            (fun u hu => hw0 u (List.mem_cons_of_mem v hu))
          constructor
          · intro h0 H h1 h2
            rw [hrun, hσ2] at h2 ⊢
            exact hrec.1 h0 H h1 h2
          · intro H h2 u hu
            rw [hrun, hσ2] at h2 ⊢
            rcases List.mem_cons.mp hu with hu1 | hu2
            · -- the skipped vertex keeps the sentinel weight
              rw [hu1]
              have hkeep := (runB_keys g suf2 σ v hvs).1
              rw [hkeep, hw0 v (List.mem_cons_self v suf2)]
              have h0H : 0 ≤ (runB g suf2 σ).1.weights H := by
                have := hfin0 H
                rw [hσ2] at this
                exact this h2
              have : intMin < 0 := by decide
              omega
            · exact hrec.2 H h2 u hu2
      | some st1 =>
          have hσ2 : (stepVertex g σ v).1
              = (endPhase g (relaxVertex g v (adj g v) st1) v).1 := by
            rw [stepVertex_gate_some hgate]
          have hshape := gateOf_shape hgate
          obtain ⟨hbv, hh2, hwv2, hold2, hcases2⟩ :=
            endPhase_step4 hE (relaxVertex g v (adj g v) st1) v
          have hfields := endPhase_fields g (relaxVertex g v (adj g v) st1) v
          -- the new best terminal is outside the remaining suffix
          have hh2out : hbv ∉ suf2 := by
            rcases hcases2 with rfl | hcase
            · exact hvs
            · have hst1hw : st1.hw = some hbv := by
                rw [← (relaxVertex_spec g v (adj g v) st1).1]
                exact hcase
              rcases hshape.2.2.1 with hhw | ⟨hhw, _, _⟩
              · have : σ.hw = some hbv := by rw [← hhw]; exact hst1hw
                exact fun hmem => hout hbv this (List.mem_cons_of_mem v hmem)
              · have : some v = some hbv := by rw [← hhw]; exact hst1hw
                obtain rfl : v = hbv := by simpa using this
                exact hvs
          -- step-level bounds transferred to the post-step state
          have hstepw : (stepVertex g σ v).1.weights
              = (relaxVertex g v (adj g v) st1).weights := by
            rw [hσ2, hfields.1]
          have hstephw : (stepVertex g σ v).1.hw = some hbv := by
            rw [hσ2, hh2]
          have hout2 : ∀ h, (stepVertex g σ v).1.hw = some h → h ∉ suf2 := by
            intro h hh
            rw [hstephw] at hh
            obtain rfl : hbv = h := by simpa using hh
            exact hh2out
          have hsfstep : (stepVertex g σ v).1.startFound = st1.startFound := by
            rw [hσ2, hfields.2.2, (relaxVertex_spec g v (adj g v) st1).2.1]
          have hb2 : g.startLabel.isSome = true →
              (stepVertex g σ v).1.startFound = false →
              (stepVertex g σ v).1.hw = none := by
            intro hiss hsf
            rw [hsfstep, hshape.2.2.2.2.2 hiss] at hsf
            exact Bool.noConfusion hsf
          have hrec := ih (stepVertex g σ v).1 hNd2 hout2 hInvStep.1 hInvStep.2
            hb2 hw02
          have hkeep : ∀ l, l ∉ suf2 →
              (runB g suf2 (stepVertex g σ v).1).1.weights l
                = (stepVertex g σ v).1.weights l :=
            fun l hl => (runB_keys g suf2 (stepVertex g σ v).1 l hl).1
          constructor
          · intro h0 H h1 h2
            rw [hrun] at h2 ⊢
            have hh0out : h0 ∉ suf2 :=
              fun hmem => hout h0 h1 (List.mem_cons_of_mem v hmem)
            have hσ2hw : (relaxVertex g v (adj g v) st1).hw = some h0 := by
              rw [(relaxVertex_spec g v (adj g v) st1).1]
              rcases hshape.2.2.1 with hhw | ⟨_, hiss, hsf⟩
              · rw [hhw]
                exact h1
              · rw [hb hiss hsf] at h1
                exact Option.noConfusion h1
            have hstepb := hold2 h0 hσ2hw
            calc (runB g suf2 (stepVertex g σ v).1).1.weights h0
                = (stepVertex g σ v).1.weights h0 := hkeep h0 hh0out
              _ = (relaxVertex g v (adj g v) st1).weights h0 := by rw [hstepw]
              _ ≤ (relaxVertex g v (adj g v) st1).weights hbv := hstepb
              _ = (stepVertex g σ v).1.weights hbv := by rw [hstepw]
              _ = (runB g suf2 (stepVertex g σ v).1).1.weights hbv :=
                  (hkeep hbv hh2out).symm
              _ ≤ (runB g suf2 (stepVertex g σ v).1).1.weights H :=
                  hrec.1 hbv H hstephw h2
          · intro H h2 u hu
            rw [hrun] at h2 ⊢
            rcases List.mem_cons.mp hu with hu1 | hu2
            · rw [hu1]
              calc (runB g suf2 (stepVertex g σ v).1).1.weights v
                  = (stepVertex g σ v).1.weights v := hkeep v hvs
                _ = (relaxVertex g v (adj g v) st1).weights v := by rw [hstepw]
                _ ≤ (relaxVertex g v (adj g v) st1).weights hbv := hwv2
                _ = (stepVertex g σ v).1.weights hbv := by rw [hstepw]
                _ = (runB g suf2 (stepVertex g σ v).1).1.weights hbv :=
                    (hkeep hbv hh2out).symm
                _ ≤ (runB g suf2 (stepVertex g σ v).1).1.weights H :=
                    hrec.1 hbv H hstephw h2
            · exact hrec.2 H h2 u hu2

/-- At the head of the remaining vertex list, the final weight and best
edge of the head vertex are those produced by its own loop iteration
(the rest of the loop never touches them). -/
lemma runB_cons_keys (g : WGraph) (v : String) (suf2 : List String)
    (σ : DPState) (hvs : v ∉ suf2) :
    (runB g (v :: suf2) σ).1.weights v = (stepVertex g σ v).1.weights v
    ∧ (runB g (v :: suf2) σ).1.best v = (stepVertex g σ v).1.best v := by
  have h1 : runB g (v :: suf2) σ
      = if (stepVertex g σ v).2 = true then ((stepVertex g σ v).1, true)
        else runB g suf2 (stepVertex g σ v).1 := rfl
  rw [h1]
  by_cases hbrk : (stepVertex g σ v).2 = true
  · rw [if_pos hbrk]
    exact ⟨rfl, rfl⟩
  · rw [if_neg hbrk]
    exact runB_keys g suf2 (stepVertex g σ v).1 v hvs

/-- In a depth-ordered graph, the weights of the predecessors of the
vertex at the head of the remaining suffix are already final: a state
holding the final weights agrees with the current state of the loop on
every such predecessor. -/
lemma pred_weights_eq (g : WGraph)
    (hT : ∀ e ∈ g.edges, e.endV ∈ g.vertices
        ∧ g.vertices.indexOf e.startV < g.vertices.indexOf e.endV)
    (hN : g.vertices.Nodup)
    {pre suf2 : List String} {v : String}
    (hsplit : g.vertices = pre ++ v :: suf2)
    (σ τ : DPState)
    (hτw : ∀ l, τ.weights l = (runB g (v :: suf2) σ).1.weights l) :
    ∀ e ∈ adj g v, e.endV = v → τ.weights e.startV = σ.weights e.startV := by
  intro e he hend
  obtain ⟨hpre, _⟩ := edges_into_head hT hN hsplit e (mem_adj he) hend
  have hNs : (pre ++ v :: suf2).Nodup := hsplit ▸ hN
  have hdisj : e.startV ∉ v :: suf2 :=
    fun hmem => (List.nodup_append.mp hNs).2.2 hpre hmem
  rw [hτw e.startV, (runB_keys g (v :: suf2) σ e.startV hdisj).1]


/-- The end phase either keeps the recorded best terminal vertex or
records the processed vertex. -/
lemma endPhase_hw_cases (g : WGraph) (st2 : DPState) (v : String) :
    (endPhase g st2 v).1.hw = st2.hw ∨ (endPhase g st2 v).1.hw = some v := by
  cases hE2 : g.endLabel with
  | some en =>
      by_cases hv : v = en
      · rw [endPhase_at_end hE2 st2 hv]
        exact Or.inr rfl
      · rw [endPhase_not_end hE2 st2 hv]
        exact Or.inl rfl
  | none =>
      cases hh : st2.hw with
      | none =>
          rw [endPhase_none_first hE2 hh v]
          exact Or.inr rfl
      | some h =>
          by_cases hgt : st2.weights v > st2.weights h
          · rw [endPhase_none_gt hE2 hh hgt]
            exact Or.inr rfl
          · rw [endPhase_none_le hE2 hh hgt]
            exact Or.inl hh

/-- One iteration of the second traversal reproduces the corresponding
iteration of the first: given that the second run's state already holds
the final weights and best edges of the first run, processing the head
vertex keeps them and preserves the best-terminal correspondence, so
the rest of the loop can be related by the induction hypothesis `IH`. -/
lemma runB_sim_core (g : WGraph)
    (hN : g.vertices.Nodup)
    (v : String) (suf2 pre : List String) (σ τ st1A st1B : DPState)
    (IH : ∀ (pre2 : List String) (σ2 τ2 : DPState),
      g.vertices = pre2 ++ suf2 →
      (∀ l, l ∉ pre2 → σ2.weights l = intMin ∧ σ2.best l = none) →
      (∀ h, σ2.hw = some h → h ∉ suf2) →
      (∀ l, τ2.weights l = (runB g suf2 σ2).1.weights l) →
      (∀ l, τ2.best l = (runB g suf2 σ2).1.best l) →
      τ2.startFound = σ2.startFound →
      (τ2.hw = σ2.hw
       ∨ (τ2.hw = (runB g suf2 σ2).1.hw
          ∧ (g.endLabel = none → ∀ H, (runB g suf2 σ2).1.hw = some H →
              ∀ u, (runB g suf2 σ2).1.weights u ≤ (runB g suf2 σ2).1.weights H))) →
      (∀ l, (runB g suf2 τ2).1.weights l = (runB g suf2 σ2).1.weights l)
      ∧ (∀ l, (runB g suf2 τ2).1.best l = (runB g suf2 σ2).1.best l)
      ∧ (runB g suf2 τ2).1.hw = (runB g suf2 σ2).1.hw)
    (hsplit : g.vertices = pre ++ v :: suf2)
    (hout0 : ∀ l, l ∉ pre → σ.weights l = intMin ∧ σ.best l = none)
    (houth : ∀ h, σ.hw = some h → h ∉ v :: suf2)
    (hgA : gateOf g σ v = some st1A)
    (hgB : gateOf g τ v = some st1B)
    (hτw : ∀ l, τ.weights l = (runB g (v :: suf2) σ).1.weights l)
    (hF1 : ∀ l, (relaxVertex g v (adj g v) st1B).weights l
        = (runB g (v :: suf2) σ).1.weights l)
    (hF2 : ∀ l, (relaxVertex g v (adj g v) st1B).best l
        = (runB g (v :: suf2) σ).1.best l)
    (hsf1 : st1B.startFound = st1A.startFound)
    (hhw1 : (st1A.hw = σ.hw ∧ st1B.hw = τ.hw)
          ∨ (st1A.hw = some v ∧ st1B.hw = some v))
    (hτhw : τ.hw = σ.hw
       ∨ (τ.hw = (runB g (v :: suf2) σ).1.hw
          ∧ (g.endLabel = none → ∀ H, (runB g (v :: suf2) σ).1.hw = some H →
              ∀ u, (runB g (v :: suf2) σ).1.weights u
                ≤ (runB g (v :: suf2) σ).1.weights H))) :
    (∀ l, (runB g (v :: suf2) τ).1.weights l = (runB g (v :: suf2) σ).1.weights l)
    ∧ (∀ l, (runB g (v :: suf2) τ).1.best l = (runB g (v :: suf2) σ).1.best l)
    ∧ (runB g (v :: suf2) τ).1.hw = (runB g (v :: suf2) σ).1.hw := by
  have hNs : (pre ++ v :: suf2).Nodup := hsplit ▸ hN
  have hparts := List.nodup_append.mp hNs
  have hvs : v ∉ suf2 := (List.nodup_cons.mp hparts.2.1).1
  have hstepσ : stepVertex g σ v = endPhase g (relaxVertex g v (adj g v) st1A) v :=
    stepVertex_gate_some hgA
  have hstepτ : stepVertex g τ v = endPhase g (relaxVertex g v (adj g v) st1B) v :=
    stepVertex_gate_some hgB
  have hshapeA := gateOf_shape hgA
  have hshapeB := gateOf_shape hgB
  have hspecA := relaxVertex_spec g v (adj g v) st1A
  have hspecB := relaxVertex_spec g v (adj g v) st1B
  have hRAhw : (relaxVertex g v (adj g v) st1A).hw = st1A.hw := hspecA.1
  have hRBhw : (relaxVertex g v (adj g v) st1B).hw = st1B.hw := hspecB.1
  cases hE : g.endLabel with
  | some en =>
      by_cases hven : v = en
      · -- the end vertex: the loop records it and breaks in both runs
        have hendA := endPhase_at_end hE (relaxVertex g v (adj g v) st1A) hven
        have hendB := endPhase_at_end hE (relaxVertex g v (adj g v) st1B) hven
        have hbσ : (stepVertex g σ v).2 = true := by rw [hstepσ, hendA]
        have hbτ : (stepVertex g τ v).2 = true := by rw [hstepτ, hendB]
        have hrunσ : runB g (v :: suf2) σ = ((stepVertex g σ v).1, true) := by
          have h1 : runB g (v :: suf2) σ
              = if (stepVertex g σ v).2 = true then ((stepVertex g σ v).1, true)
                else runB g suf2 (stepVertex g σ v).1 := rfl
          rw [h1, if_pos hbσ]
        have hrunτ : runB g (v :: suf2) τ = ((stepVertex g τ v).1, true) := by
          have h1 : runB g (v :: suf2) τ
              = if (stepVertex g τ v).2 = true then ((stepVertex g τ v).1, true)
                else runB g suf2 (stepVertex g τ v).1 := rfl
          rw [h1, if_pos hbτ]
        refine ⟨fun l => ?_, fun l => ?_, ?_⟩
        · rw [hrunτ, hstepτ, hendB]
          exact hF1 l
        · rw [hrunτ, hstepτ, hendB]
          exact hF2 l
        · rw [hrunτ, hstepτ, hendB, hrunσ, hstepσ, hendA]
      · -- away from the end vertex: no break, no best-terminal update
        have hendA := endPhase_not_end hE (relaxVertex g v (adj g v) st1A) hven
        have hendB := endPhase_not_end hE (relaxVertex g v (adj g v) st1B) hven
        have hbσ : (stepVertex g σ v).2 = false := by rw [hstepσ, hendA]
        have hbτ : (stepVertex g τ v).2 = false := by rw [hstepτ, hendB]
        have hrunσ : runB g (v :: suf2) σ
            = runB g suf2 (relaxVertex g v (adj g v) st1A) := by
          have h1 : runB g (v :: suf2) σ
              = if (stepVertex g σ v).2 = true then ((stepVertex g σ v).1, true)
                else runB g suf2 (stepVertex g σ v).1 := rfl
          rw [h1, hbσ]
          simp only [Bool.false_eq_true, if_false]
          rw [hstepσ, hendA]
        have hrunτ : runB g (v :: suf2) τ
            = runB g suf2 (relaxVertex g v (adj g v) st1B) := by
          have h1 : runB g (v :: suf2) τ
              = if (stepVertex g τ v).2 = true then ((stepVertex g τ v).1, true)
                else runB g suf2 (stepVertex g τ v).1 := rfl
          rw [h1, hbτ]
          simp only [Bool.false_eq_true, if_false]
          rw [hstepτ, hendB]
        have hout0b : ∀ l, l ∉ pre ++ [v] →
            (relaxVertex g v (adj g v) st1A).weights l = intMin
            ∧ (relaxVertex g v (adj g v) st1A).best l = none := by
          intro l hl
          have hlp : l ∉ pre := fun h => hl (List.mem_append.mpr (Or.inl h))
          have hlv : l ≠ v := fun h => hl (List.mem_append.mpr (Or.inr (by simp [h])))
          constructor
          · rw [(hspecA.2.2.1 l hlv).1, hshapeA.2.1 l hlv]
            exact (hout0 l hlp).1
          · rw [(hspecA.2.2.1 l hlv).2, hshapeA.1]
            exact (hout0 l hlp).2
        have houthb : ∀ h, (relaxVertex g v (adj g v) st1A).hw = some h →
            h ∉ suf2 := by
          intro h hh
          rw [hRAhw] at hh
          rcases hhw1 with ⟨hA1, _⟩ | ⟨hA1, _⟩
          · rw [hA1] at hh
            exact fun hmem => houth h hh (List.mem_cons_of_mem v hmem)
          · rw [hA1] at hh
            obtain rfl : v = h := by simpa using hh
            exact hvs
        have hτwb : ∀ l, (relaxVertex g v (adj g v) st1B).weights l
            = (runB g suf2 (relaxVertex g v (adj g v) st1A)).1.weights l := by
          intro l
          rw [← hrunσ]
          exact hF1 l
        have hτbb : ∀ l, (relaxVertex g v (adj g v) st1B).best l
            = (runB g suf2 (relaxVertex g v (adj g v) st1A)).1.best l := by
          intro l
          rw [← hrunσ]
          exact hF2 l
        have hsfb : (relaxVertex g v (adj g v) st1B).startFound
            = (relaxVertex g v (adj g v) st1A).startFound := by
          rw [hspecB.2.1, hspecA.2.1, hsf1]
        have hτhwb : (relaxVertex g v (adj g v) st1B).hw
              = (relaxVertex g v (adj g v) st1A).hw
            ∨ ((relaxVertex g v (adj g v) st1B).hw
                = (runB g suf2 (relaxVertex g v (adj g v) st1A)).1.hw
               ∧ (g.endLabel = none → ∀ H,
                  (runB g suf2 (relaxVertex g v (adj g v) st1A)).1.hw = some H →
                  ∀ u, (runB g suf2 (relaxVertex g v (adj g v) st1A)).1.weights u
                    ≤ (runB g suf2 (relaxVertex g v (adj g v) st1A)).1.weights H)) := by
          rw [hRAhw, hRBhw]
          rcases hhw1 with ⟨hA1, hB1⟩ | ⟨hA1, hB1⟩
          · rw [hA1, hB1]
            rcases hτhw with heq | ⟨hfin, hdom⟩
            · exact Or.inl heq
            · refine Or.inr ⟨?_, ?_⟩
              · rw [hfin, hrunσ]
              · intro hEn
                rw [hE] at hEn
                exact Option.noConfusion hEn
          · rw [hA1, hB1]
            exact Or.inl rfl
        obtain ⟨hW, hB, hH⟩ := IH (pre ++ [v])
          (relaxVertex g v (adj g v) st1A) (relaxVertex g v (adj g v) st1B)
          (by rw [hsplit]; exact (List.append_assoc pre [v] suf2).symm)
          hout0b houthb hτwb hτbb hsfb hτhwb
        rw [hrunσ, hrunτ]
        exact ⟨hW, hB, hH⟩
  | none =>
      have hnbA := endPhase_nobreak hE (relaxVertex g v (adj g v) st1A) v
      have hnbB := endPhase_nobreak hE (relaxVertex g v (adj g v) st1B) v
      have hbσ : (stepVertex g σ v).2 = false := by rw [hstepσ]; exact hnbA
      have hbτ : (stepVertex g τ v).2 = false := by rw [hstepτ]; exact hnbB
      have hfieldsA := endPhase_fields g (relaxVertex g v (adj g v) st1A) v
      have hfieldsB := endPhase_fields g (relaxVertex g v (adj g v) st1B) v
      have hrunσ : runB g (v :: suf2) σ
          = runB g suf2 (endPhase g (relaxVertex g v (adj g v) st1A) v).1 := by
        have h1 : runB g (v :: suf2) σ
            = if (stepVertex g σ v).2 = true then ((stepVertex g σ v).1, true)
              else runB g suf2 (stepVertex g σ v).1 := rfl
        rw [h1, hbσ]
        simp only [Bool.false_eq_true, if_false]
        rw [hstepσ]
      have hrunτ : runB g (v :: suf2) τ
          = runB g suf2 (endPhase g (relaxVertex g v (adj g v) st1B) v).1 := by
        have h1 : runB g (v :: suf2) τ
            = if (stepVertex g τ v).2 = true then ((stepVertex g τ v).1, true)
              else runB g suf2 (stepVertex g τ v).1 := rfl
        rw [h1, hbτ]
        simp only [Bool.false_eq_true, if_false]
        rw [hstepτ]
      have hFINv : (runB g (v :: suf2) σ).1.weights v
          = (relaxVertex g v (adj g v) st1A).weights v := by
        rw [(runB_cons_keys g v suf2 σ hvs).1, hstepσ, hfieldsA.1]
      have hout0b : ∀ l, l ∉ pre ++ [v] →
          (endPhase g (relaxVertex g v (adj g v) st1A) v).1.weights l = intMin
          ∧ (endPhase g (relaxVertex g v (adj g v) st1A) v).1.best l = none := by
        intro l hl
        have hlp : l ∉ pre := fun h => hl (List.mem_append.mpr (Or.inl h))
        have hlv : l ≠ v := fun h => hl (List.mem_append.mpr (Or.inr (by simp [h])))
        constructor
        · rw [hfieldsA.1, (hspecA.2.2.1 l hlv).1, hshapeA.2.1 l hlv]
          exact (hout0 l hlp).1
        · rw [hfieldsA.2.1, (hspecA.2.2.1 l hlv).2, hshapeA.1]
          exact (hout0 l hlp).2
      have houthb : ∀ h,
          (endPhase g (relaxVertex g v (adj g v) st1A) v).1.hw = some h →
          h ∉ suf2 := by
        intro h hh
        rcases endPhase_hw_cases g (relaxVertex g v (adj g v) st1A) v with hc | hc
        · rw [hc, hRAhw] at hh
          rcases hhw1 with ⟨hA1, _⟩ | ⟨hA1, _⟩
          · rw [hA1] at hh
            exact fun hmem => houth h hh (List.mem_cons_of_mem v hmem)
          · rw [hA1] at hh
            obtain rfl : v = h := by simpa using hh
            exact hvs
        · rw [hc] at hh
          obtain rfl : v = h := by simpa using hh
          exact hvs
      have hτwb : ∀ l,
          (endPhase g (relaxVertex g v (adj g v) st1B) v).1.weights l
            = (runB g suf2
                (endPhase g (relaxVertex g v (adj g v) st1A) v).1).1.weights l := by
        intro l
        rw [hfieldsB.1, ← hrunσ]
        exact hF1 l
      have hτbb : ∀ l,
          (endPhase g (relaxVertex g v (adj g v) st1B) v).1.best l
            = (runB g suf2
                (endPhase g (relaxVertex g v (adj g v) st1A) v).1).1.best l := by
        intro l
        rw [hfieldsB.2.1, ← hrunσ]
        exact hF2 l
      have hsfb : (endPhase g (relaxVertex g v (adj g v) st1B) v).1.startFound
          = (endPhase g (relaxVertex g v (adj g v) st1A) v).1.startFound := by
        rw [hfieldsB.2.2, hfieldsA.2.2, hspecB.2.1, hspecA.2.1, hsf1]
      have hτhwb : (endPhase g (relaxVertex g v (adj g v) st1B) v).1.hw
            = (endPhase g (relaxVertex g v (adj g v) st1A) v).1.hw
          ∨ ((endPhase g (relaxVertex g v (adj g v) st1B) v).1.hw
              = (runB g suf2
                  (endPhase g (relaxVertex g v (adj g v) st1A) v).1).1.hw
             ∧ (g.endLabel = none → ∀ H,
                (runB g suf2
                  (endPhase g (relaxVertex g v (adj g v) st1A) v).1).1.hw = some H →
                ∀ u, (runB g suf2
                    (endPhase g (relaxVertex g v (adj g v) st1A) v).1).1.weights u
                  ≤ (runB g suf2
                    (endPhase g (relaxVertex g v (adj g v) st1A) v).1).1.weights H)) := by
        rcases hhw1 with ⟨hA1, hB1⟩ | ⟨hA1, hB1⟩
        · have hRA : (relaxVertex g v (adj g v) st1A).hw = σ.hw := by
            rw [hRAhw, hA1]
          have hRB : (relaxVertex g v (adj g v) st1B).hw = τ.hw := by
            rw [hRBhw, hB1]
          rcases hτhw with heq | ⟨hfin, hdom⟩
          · -- exact replay of the best-terminal update
            cases hσhw : σ.hw with
            | none =>
                have hRA2 : (relaxVertex g v (adj g v) st1A).hw = none := by
                  rw [hRA, hσhw]
                have hRB2 : (relaxVertex g v (adj g v) st1B).hw = none := by
                  rw [hRB, heq, hσhw]
                rw [endPhase_none_first hE hRA2 v, endPhase_none_first hE hRB2 v]
                exact Or.inl rfl
            | some h =>
                have hhnot : h ∉ v :: suf2 := houth h hσhw
                have hhv : h ≠ v := by
                  intro he
                  exact hhnot (he ▸ List.mem_cons_self v suf2)
                have hRA2 : (relaxVertex g v (adj g v) st1A).hw = some h := by
                  rw [hRA, hσhw]
                have hRB2 : (relaxVertex g v (adj g v) st1B).hw = some h := by
                  rw [hRB, heq, hσhw]
                have hveq : (relaxVertex g v (adj g v) st1B).weights v
                    = (relaxVertex g v (adj g v) st1A).weights v := by
                  rw [hF1 v, hFINv]
                have hheq : (relaxVertex g v (adj g v) st1B).weights h
                    = (relaxVertex g v (adj g v) st1A).weights h := by
                  rw [(hspecB.2.2.1 h hhv).1, (hspecA.2.2.1 h hhv).1,
                    hshapeB.2.1 h hhv, hshapeA.2.1 h hhv, hτw h,
                    (runB_keys g (v :: suf2) σ h hhnot).1]
                by_cases hgt : (relaxVertex g v (adj g v) st1A).weights v
                    > (relaxVertex g v (adj g v) st1A).weights h
                · have hgtB : (relaxVertex g v (adj g v) st1B).weights v
                      > (relaxVertex g v (adj g v) st1B).weights h := by
                    rw [hveq, hheq]
                    exact hgt
                  rw [endPhase_none_gt hE hRA2 hgt, endPhase_none_gt hE hRB2 hgtB]
                  exact Or.inl rfl
                · have hgtB : ¬((relaxVertex g v (adj g v) st1B).weights v
                      > (relaxVertex g v (adj g v) st1B).weights h) := by
                    rw [hveq, hheq]
                    exact hgt
                  rw [endPhase_none_le hE hRA2 hgt, endPhase_none_le hE hRB2 hgtB]
                  exact Or.inl (show (relaxVertex g v (adj g v) st1B).hw
                    = (relaxVertex g v (adj g v) st1A).hw by rw [hRB2, hRA2])
          · -- the second run already carries the final best terminal
            obtain ⟨h1, hh1⟩ :=
              endPhase_hw_isSome hE (relaxVertex g v (adj g v) st1A) v
            have hE1ne : (endPhase g (relaxVertex g v (adj g v) st1A) v).1.hw
                ≠ none := by
              rw [hh1]
              simp
            have hFINne : (runB g (v :: suf2) σ).1.hw ≠ none := by
              rw [hrunσ]
              exact runB_hw_persist g hE suf2 _ hE1ne
            obtain ⟨H, hFH⟩ := Option.ne_none_iff_exists'.mp hFINne
            have hRB2 : (relaxVertex g v (adj g v) st1B).hw = some H := by
              rw [hRB, hfin, hFH]
            have hle : ¬((relaxVertex g v (adj g v) st1B).weights v
                > (relaxVertex g v (adj g v) st1B).weights H) := by
              by_cases hHv : H = v
              · rw [hHv]
                exact lt_irrefl _
              · have h2 : (relaxVertex g v (adj g v) st1B).weights H
                    = (runB g (v :: suf2) σ).1.weights H := by
                  rw [(hspecB.2.2.1 H hHv).1, hshapeB.2.1 H hHv, hτw H]
                have h3 := hdom hE H hFH v
                rw [hF1 v, h2]
                omega
            rw [endPhase_none_le hE hRB2 hle]
            refine Or.inr ⟨?_, ?_⟩
            · show (relaxVertex g v (adj g v) st1B).hw
                = (runB g suf2
                    (endPhase g (relaxVertex g v (adj g v) st1A) v).1).1.hw
              rw [hRB2, ← hrunσ, hFH]
            · intro _ H2 hH2 u
              rw [← hrunσ] at hH2 ⊢
              exact hdom hE H2 hH2 u
        · -- start vertex: the gate just recorded `v` in both runs
          have hRA2 : (relaxVertex g v (adj g v) st1A).hw = some v := by
            rw [hRAhw, hA1]
          have hRB2 : (relaxVertex g v (adj g v) st1B).hw = some v := by
            rw [hRBhw, hB1]
          have hleA : ¬((relaxVertex g v (adj g v) st1A).weights v
              > (relaxVertex g v (adj g v) st1A).weights v) := lt_irrefl _
          have hleB : ¬((relaxVertex g v (adj g v) st1B).weights v
              > (relaxVertex g v (adj g v) st1B).weights v) := lt_irrefl _
          rw [endPhase_none_le hE hRA2 hleA, endPhase_none_le hE hRB2 hleB]
          exact Or.inl (show (relaxVertex g v (adj g v) st1B).hw
            = (relaxVertex g v (adj g v) st1A).hw by rw [hRB2, hRA2])
      obtain ⟨hW, hB, hH⟩ := IH (pre ++ [v])
        (endPhase g (relaxVertex g v (adj g v) st1A) v).1
        (endPhase g (relaxVertex g v (adj g v) st1B) v).1
        (by rw [hsplit]; exact (List.append_assoc pre [v] suf2).symm)
        hout0b houthb hτwb hτbb hsfb hτhwb
      rw [hrunσ, hrunτ]
      exact ⟨hW, hB, hH⟩

/-- The vertex loop run a second time over any suffix of the vertex
list reproduces the first run: if the second run's state already holds
the first run's final weights and best edges, and its best terminal
either replays the first run's or already equals the first run's
maximal final one, then after the suffix both runs agree on every
weight, every best edge and the best terminal vertex. -/
lemma runB_sim (g : WGraph)
    (hT : ∀ e ∈ g.edges, e.endV ∈ g.vertices
        ∧ g.vertices.indexOf e.startV < g.vertices.indexOf e.endV)
    (hN : g.vertices.Nodup) :
    ∀ (suf : List String) (pre : List String) (σ τ : DPState),
      g.vertices = pre ++ suf →
      (∀ l, l ∉ pre → σ.weights l = intMin ∧ σ.best l = none) →
      (∀ h, σ.hw = some h → h ∉ suf) →
      (∀ l, τ.weights l = (runB g suf σ).1.weights l) →
      (∀ l, τ.best l = (runB g suf σ).1.best l) →
      τ.startFound = σ.startFound →
      (τ.hw = σ.hw
       ∨ (τ.hw = (runB g suf σ).1.hw
          ∧ (g.endLabel = none → ∀ H, (runB g suf σ).1.hw = some H →
              ∀ u, (runB g suf σ).1.weights u ≤ (runB g suf σ).1.weights H))) →
      (∀ l, (runB g suf τ).1.weights l = (runB g suf σ).1.weights l)
      ∧ (∀ l, (runB g suf τ).1.best l = (runB g suf σ).1.best l)
      ∧ (runB g suf τ).1.hw = (runB g suf σ).1.hw := by
  intro suf
  induction suf with
  | nil =>
      intro pre σ τ _ _ _ hτw hτb _ hτhw
      refine ⟨hτw, hτb, ?_⟩
      rcases hτhw with heq | ⟨hfin, _⟩
      · exact heq
      · exact hfin
  | cons v suf2 ih =>
      intro pre σ τ hsplit hout0 houth hτw hτb hτsf hτhw
      have hnv : ∀ e ∈ adj g v, e.endV = v → e.startV ≠ v :=
        fun e he hend => (edges_into_head hT hN hsplit e (mem_adj he) hend).2
      have hpredτ : ∀ e ∈ adj g v, e.endV = v →
          τ.weights e.startV = σ.weights e.startV :=
        pred_weights_eq g hT hN hsplit σ τ hτw
      have hNs : (pre ++ v :: suf2).Nodup := hsplit ▸ hN
      have hvs : v ∉ suf2 :=
        (List.nodup_cons.mp (List.nodup_append.mp hNs).2.1).1
      cases hs : g.startLabel with
      | none =>
          -- no start constraint: both runs reset the weight of v to 0
          have hgA := gateOf_no_constraint hs σ v
          have hgB := gateOf_no_constraint hs τ v
          have hpred1 : ∀ e ∈ adj g v, e.endV = v →
              ({ σ with weights := fun l => if l = v then (0 : Int) else σ.weights l } : DPState).weights e.startV
              = ({ τ with weights := fun l => if l = v then (0 : Int) else τ.weights l } : DPState).weights e.startV := by
            intro e he hend
            have hsv := hnv e he hend
            show (if e.startV = v then (0 : Int) else σ.weights e.startV)
                = (if e.startV = v then (0 : Int) else τ.weights e.startV)
            rw [if_neg hsv, if_neg hsv, hpredτ e he hend]
          have h0 : ({ σ with weights := fun l => if l = v then (0 : Int) else σ.weights l } : DPState).weights v
              = ({ τ with weights := fun l => if l = v then (0 : Int) else τ.weights l } : DPState).weights v := by
            show (if v = v then (0 : Int) else σ.weights v)
                = (if v = v then (0 : Int) else τ.weights v)
            rw [if_pos rfl, if_pos rfl]
          have hsim := @relaxVertex_sim g v (adj g v)
            { σ with weights := fun l => if l = v then (0 : Int) else σ.weights l }
            { τ with weights := fun l => if l = v then (0 : Int) else τ.weights l }
            hnv hpred1 h0
          have hstepσ : stepVertex g σ v
              = endPhase g (relaxVertex g v (adj g v)
                  { σ with weights := fun l => if l = v then (0 : Int) else σ.weights l }) v :=
            stepVertex_gate_some hgA
          have hFINv : (runB g (v :: suf2) σ).1.weights v
              = (relaxVertex g v (adj g v)
                  { σ with weights := fun l => if l = v then (0 : Int) else σ.weights l }).weights v := by
            rw [(runB_cons_keys g v suf2 σ hvs).1, hstepσ,
              (endPhase_fields g _ v).1]
          have hFINb : (runB g (v :: suf2) σ).1.best v
              = (relaxVertex g v (adj g v)
                  { σ with weights := fun l => if l = v then (0 : Int) else σ.weights l }).best v := by
            rw [(runB_cons_keys g v suf2 σ hvs).2, hstepσ,
              (endPhase_fields g _ v).2.1]
          have hF1 : ∀ l, (relaxVertex g v (adj g v)
                  { τ with weights := fun l => if l = v then (0 : Int) else τ.weights l }).weights l
              = (runB g (v :: suf2) σ).1.weights l := by
            intro l
            by_cases hl : l = v
            · subst hl
              rw [hFINv]
              exact hsim.1.symm
            · rw [((relaxVertex_spec g v (adj g v)
                  { τ with weights := fun l => if l = v then (0 : Int) else τ.weights l }).2.2.1 l hl).1]
              show (if l = v then (0 : Int) else τ.weights l)
                  = (runB g (v :: suf2) σ).1.weights l
              rw [if_neg hl]
              exact hτw l
          have hF2 : ∀ l, (relaxVertex g v (adj g v)
                  { τ with weights := fun l => if l = v then (0 : Int) else τ.weights l }).best l
              = (runB g (v :: suf2) σ).1.best l := by
            intro l
            by_cases hl : l = v
            · subst hl
              rcases hsim.2 with heq | ⟨huA, huB⟩
              · rw [hFINb]
                exact heq.symm
              · rw [huB]
                exact hτb l
            · rw [((relaxVertex_spec g v (adj g v)
                  { τ with weights := fun l => if l = v then (0 : Int) else τ.weights l }).2.2.1 l hl).2]
              exact hτb l
          exact runB_sim_core g hN v suf2 pre σ τ _ _ ih hsplit hout0 houth
            hgA hgB hτw hF1 hF2 hτsf (Or.inl ⟨rfl, rfl⟩) hτhw
      | some s =>
          cases hsfσ : σ.startFound with
          | true =>
              -- start already found: no weight reset before the edge loop
              have hsfτt : τ.startFound = true := by
                rw [hτsf]
                exact hsfσ
              have hgA := gateOf_found hs hsfσ v
              have hgB := gateOf_found hs hsfτt v
              have hstepσ : stepVertex g σ v
                  = endPhase g (relaxVertex g v (adj g v) σ) v :=
                stepVertex_gate_some hgA
              have hFINv : (runB g (v :: suf2) σ).1.weights v
                  = (relaxVertex g v (adj g v) σ).weights v := by
                rw [(runB_cons_keys g v suf2 σ hvs).1, hstepσ,
                  (endPhase_fields g _ v).1]
              have hfix : relaxVertex g v (adj g v) τ = τ := by
                apply relaxVertex_fixed
                intro e he
                by_cases hend : e.endV = v
                · have hτσ := hpredτ e he hend
                  by_cases hmin : σ.weights e.startV = intMin
                  · exact relaxStep_skip τ e
                      ⟨by rw [hs]; rfl, by rw [hτσ, hmin]⟩
                  · apply relaxStep_le τ e
                    have hbound := @relaxVertex_bound g v (adj g v) σ hnv e he hend
                      (fun hcon => hmin hcon.2)
                    have hτv : τ.weights v
                        = (relaxVertex g v (adj g v) σ).weights v := by
                      rw [hτw v, hFINv]
                    rw [hτσ, hτv]
                    omega
                · exact relaxStep_not_end τ hend
              have hF1 : ∀ l, (relaxVertex g v (adj g v) τ).weights l
                  = (runB g (v :: suf2) σ).1.weights l := by
                intro l
                rw [hfix]
                exact hτw l
              have hF2 : ∀ l, (relaxVertex g v (adj g v) τ).best l
                  = (runB g (v :: suf2) σ).1.best l := by
                intro l
                rw [hfix]
                exact hτb l
              exact runB_sim_core g hN v suf2 pre σ τ σ τ ih hsplit hout0
                houth hgA hgB hτw hF1 hF2 hτsf (Or.inl ⟨rfl, rfl⟩) hτhw
          | false =>
              have hsfτ : τ.startFound = false := by
                rw [hτsf]
                exact hsfσ
              by_cases hv : v = s
              · -- the start vertex: reset, record it, raise the flag in both
                have hgA := gateOf_at_start hs hsfσ hv
                have hgB := gateOf_at_start hs hsfτ hv
                have hpred1 : ∀ e ∈ adj g v, e.endV = v →
                    ({ σ with weights := fun l => if l = v then (0 : Int) else σ.weights l, hw := some v, startFound := true } : DPState).weights e.startV
                    = ({ τ with weights := fun l => if l = v then (0 : Int) else τ.weights l, hw := some v, startFound := true } : DPState).weights e.startV := by
                  intro e he hend
                  have hsv := hnv e he hend
                  show (if e.startV = v then (0 : Int) else σ.weights e.startV)
                      = (if e.startV = v then (0 : Int) else τ.weights e.startV)
                  rw [if_neg hsv, if_neg hsv, hpredτ e he hend]
                have h0 : ({ σ with weights := fun l => if l = v then (0 : Int) else σ.weights l, hw := some v, startFound := true } : DPState).weights v
                    = ({ τ with weights := fun l => if l = v then (0 : Int) else τ.weights l, hw := some v, startFound := true } : DPState).weights v := by
                  show (if v = v then (0 : Int) else σ.weights v)
                      = (if v = v then (0 : Int) else τ.weights v)
                  rw [if_pos rfl, if_pos rfl]
                have hsim := @relaxVertex_sim g v (adj g v)
                  { σ with weights := fun l => if l = v then (0 : Int) else σ.weights l, hw := some v, startFound := true }
                  { τ with weights := fun l => if l = v then (0 : Int) else τ.weights l, hw := some v, startFound := true }
                  hnv hpred1 h0
                have hstepσ : stepVertex g σ v
                    = endPhase g (relaxVertex g v (adj g v)
                        { σ with weights := fun l => if l = v then (0 : Int) else σ.weights l, hw := some v, startFound := true }) v :=
                  stepVertex_gate_some hgA
                have hFINv : (runB g (v :: suf2) σ).1.weights v
                    = (relaxVertex g v (adj g v)
                        { σ with weights := fun l => if l = v then (0 : Int) else σ.weights l, hw := some v, startFound := true }).weights v := by
                  rw [(runB_cons_keys g v suf2 σ hvs).1, hstepσ,
                    (endPhase_fields g _ v).1]
                have hFINb : (runB g (v :: suf2) σ).1.best v
                    = (relaxVertex g v (adj g v)
                        { σ with weights := fun l => if l = v then (0 : Int) else σ.weights l, hw := some v, startFound := true }).best v := by
                  rw [(runB_cons_keys g v suf2 σ hvs).2, hstepσ,
                    (endPhase_fields g _ v).2.1]
                have hF1 : ∀ l, (relaxVertex g v (adj g v)
                        { τ with weights := fun l => if l = v then (0 : Int) else τ.weights l, hw := some v, startFound := true }).weights l
                    = (runB g (v :: suf2) σ).1.weights l := by
                  intro l
                  by_cases hl : l = v
                  · subst hl
                    rw [hFINv]
                    exact hsim.1.symm
                  · rw [((relaxVertex_spec g v (adj g v)
                        { τ with weights := fun l => if l = v then (0 : Int) else τ.weights l, hw := some v, startFound := true }).2.2.1 l hl).1]
                    show (if l = v then (0 : Int) else τ.weights l)
                        = (runB g (v :: suf2) σ).1.weights l
                    rw [if_neg hl]
                    exact hτw l
                have hF2 : ∀ l, (relaxVertex g v (adj g v)
                        { τ with weights := fun l => if l = v then (0 : Int) else τ.weights l, hw := some v, startFound := true }).best l
                    = (runB g (v :: suf2) σ).1.best l := by
                  intro l
                  by_cases hl : l = v
                  · subst hl
                    rcases hsim.2 with heq | ⟨huA, huB⟩
                    · rw [hFINb]
                      exact heq.symm
                    · rw [huB]
                      exact hτb l
                  · rw [((relaxVertex_spec g v (adj g v)
                        { τ with weights := fun l => if l = v then (0 : Int) else τ.weights l, hw := some v, startFound := true }).2.2.1 l hl).2]
                    exact hτb l
                exact runB_sim_core g hN v suf2 pre σ τ _ _ ih hsplit hout0
                  houth hgA hgB hτw hF1 hF2 rfl (Or.inr ⟨rfl, rfl⟩) hτhw
              · -- before the start vertex: both runs skip v entirely
                have hgA := gateOf_skip hs hsfσ hv
                have hgB := gateOf_skip hs hsfτ hv
                have hstσ : stepVertex g σ v = (σ, false) :=
                  stepVertex_gate_none hgA
                have hstτ : stepVertex g τ v = (τ, false) :=
                  stepVertex_gate_none hgB
                have hrunσ : runB g (v :: suf2) σ = runB g suf2 σ := by
                  have h1 : runB g (v :: suf2) σ
                      = if (stepVertex g σ v).2 = true
                        then ((stepVertex g σ v).1, true)
                        else runB g suf2 (stepVertex g σ v).1 := rfl
                  rw [h1, hstσ]
                  simp
                have hrunτ : runB g (v :: suf2) τ = runB g suf2 τ := by
                  have h1 : runB g (v :: suf2) τ
                      = if (stepVertex g τ v).2 = true
                        then ((stepVertex g τ v).1, true)
                        else runB g suf2 (stepVertex g τ v).1 := rfl
                  rw [h1, hstτ]
                  simp
                rw [hrunσ, hrunτ]
                refine ih (pre ++ [v]) σ τ ?_ ?_ ?_ ?_ ?_ hτsf ?_
                · rw [hsplit]
                  exact (List.append_assoc pre [v] suf2).symm
                · intro l hl
                  exact hout0 l (fun h => hl (List.mem_append.mpr (Or.inl h)))
                · intro h hh
                  exact fun hmem => houth h hh (List.mem_cons_of_mem v hmem)
                · intro l
                  rw [← hrunσ]
                  exact hτw l
                · intro l
                  rw [← hrunσ]
                  exact hτb l
                · rcases hτhw with heq | ⟨hfin, hdom⟩
                  · exact Or.inl heq
                  · refine Or.inr ⟨?_, ?_⟩
                    · rw [← hrunσ]
                      exact hfin
                    · intro hEn H hH u
                      rw [← hrunσ] at hH ⊢
                      exact hdom hEn H hH u

/-- The reconstructed path depends only on the best-edge map and the
best terminal vertex. -/
lemma getPath_congr (g : WGraph) {stA stB : DPState}
    (hb : stA.best = stB.best) (hh : stA.hw = stB.hw) :
    getPath g stA = getPath g stB := by
  unfold getPath
  rw [hb, hh]

/-- The reported result depends only on the weights, the best-edge map
and the best terminal vertex. -/
lemma resultOf_congr (g : WGraph) {stA stB : DPState}
    (hw : stA.weights = stB.weights) (hb : stA.best = stB.best)
    (hh : stA.hw = stB.hw) :
    resultOf g stA = resultOf g stB := by
  unfold resultOf getPath
  rw [hw, hb, hh]

end Engine


/-! ## Claim theorems: idempotence of the traversal -/

/-- **C9.**  Running `findHighestWeightPath` a second time on the same
loaded graph, without reloading or modifying it, yields the same best
terminal vertex, the same per-vertex weights and best incoming edges,
and the same reconstructed path and reported result as the first run.
The hypotheses record the graph-file contract: the stored vertex list
is duplicate-free and in depth order (every edge's end vertex appears
in the list, strictly after the edge's start vertex). -/
theorem claim9_idempotent (g : Engine.WGraph) (st1 st2 : Engine.DPState)
    (hN : g.vertices.Nodup)
    (hT : ∀ e ∈ g.edges, e.endV ∈ g.vertices
        ∧ g.vertices.indexOf e.startV < g.vertices.indexOf e.endV)
    (h1 : st1 = Engine.findHighestWeightPath g Engine.initState)
    (h2 : st2 = Engine.findHighestWeightPath g st1) :
    st2.hw = st1.hw
    ∧ (∀ l, st2.weights l = st1.weights l)
    ∧ (∀ l, st2.best l = st1.best l)
    ∧ Engine.getPath g st2 = Engine.getPath g st1
    ∧ Engine.resultOf g st2 = Engine.resultOf g st1 := by
  subst h2
  subst h1
  have hfin : Engine.findHighestWeightPath g Engine.initState
      = (Engine.runB g g.vertices
          { Engine.initState with startFound := false }).1 := by
    rw [Engine.runB_fst]
    rfl
  have hfin2 : Engine.findHighestWeightPath g
        (Engine.findHighestWeightPath g Engine.initState)
      = (Engine.runB g g.vertices
          { Engine.findHighestWeightPath g Engine.initState with
            startFound := false }).1 := by
    rw [Engine.runB_fst]
    rfl
  have hdom : g.endLabel = none → ∀ H,
      (Engine.runB g g.vertices
        { Engine.initState with startFound := false }).1.hw = some H →
      ∀ u, (Engine.runB g g.vertices
          { Engine.initState with startFound := false }).1.weights u
        ≤ (Engine.runB g g.vertices
          { Engine.initState with startFound := false }).1.weights H := by
    intro hE H hH u
    have hmax := Engine.runB_hw_max g hE g.vertices
      { Engine.initState with startFound := false } hN
      (fun h hh => Option.noConfusion hh)
      (fun u2 hu2 => Option.noConfusion hu2)
      (fun hsf => Bool.noConfusion hsf)
      (fun _ _ => rfl)
      (fun u2 _ => rfl)
    by_cases hu : u ∈ g.vertices
    · exact hmax.2 H hH u hu
    · have hkeep := (Engine.runB_keys g g.vertices
        { Engine.initState with startFound := false } u hu).1
      have h0H : 0 ≤ (Engine.runB g g.vertices
          { Engine.initState with startFound := false }).1.weights H := by
        rw [Engine.runB_fst] at hH ⊢
        exact Engine.runVertices_inv g hE g.vertices
          { Engine.initState with startFound := false }
          (fun u2 hu2 => Option.noConfusion hu2)
          (fun hsf => Bool.noConfusion hsf) H hH
      rw [hkeep]
      calc ({ Engine.initState with startFound := false }
            : Engine.DPState).weights u
          = Engine.intMin := rfl
        _ ≤ 0 := by decide
        _ ≤ _ := h0H
  have hsim := Engine.runB_sim g hT hN g.vertices []
    { Engine.initState with startFound := false }
    { Engine.findHighestWeightPath g Engine.initState with
      startFound := false }
    rfl
    (fun l _ => ⟨rfl, rfl⟩)
    (fun h hh => Option.noConfusion hh)
    (by intro l; rw [hfin])
    (by intro l; rw [hfin])
    rfl
    (Or.inr ⟨by rw [hfin], hdom⟩)
  obtain ⟨hW, hB, hH⟩ := hsim
  have hWf : ∀ l, (Engine.findHighestWeightPath g
        (Engine.findHighestWeightPath g Engine.initState)).weights l
      = (Engine.findHighestWeightPath g Engine.initState).weights l := by
    intro l
    rw [hfin2]
    exact (hW l).trans
      (congrArg (fun st => Engine.DPState.weights st l) hfin.symm)
  have hBf : ∀ l, (Engine.findHighestWeightPath g
        (Engine.findHighestWeightPath g Engine.initState)).best l
      = (Engine.findHighestWeightPath g Engine.initState).best l := by
    intro l
    rw [hfin2]
    exact (hB l).trans
      (congrArg (fun st => Engine.DPState.best st l) hfin.symm)
  have hHf : (Engine.findHighestWeightPath g
        (Engine.findHighestWeightPath g Engine.initState)).hw
      = (Engine.findHighestWeightPath g Engine.initState).hw := by
    rw [hfin2]
    exact hH.trans (congrArg Engine.DPState.hw hfin.symm)
  refine ⟨hHf, hWf, hBf, ?_, ?_⟩
  · exact Engine.getPath_congr g (funext hBf) hHf
  · exact Engine.resultOf_congr g (funext hWf) (funext hBf) hHf

/-- Witness for C9: the loaded two-vertex graph `Gpath` satisfies the
depth-order contract, and the second traversal reproduces the first. -/
theorem claim9_idempotent_check :
    Gpath.vertices.Nodup
    ∧ (∀ e ∈ Gpath.edges, e.endV ∈ Gpath.vertices
        ∧ Gpath.vertices.indexOf e.startV < Gpath.vertices.indexOf e.endV)
    ∧ ((Engine.findHighestWeightPath Gpath
          (Engine.findHighestWeightPath Gpath Engine.initState)).hw
        = (Engine.findHighestWeightPath Gpath Engine.initState).hw
      ∧ (∀ l, (Engine.findHighestWeightPath Gpath
            (Engine.findHighestWeightPath Gpath Engine.initState)).weights l
          = (Engine.findHighestWeightPath Gpath Engine.initState).weights l)
      ∧ (∀ l, (Engine.findHighestWeightPath Gpath
            (Engine.findHighestWeightPath Gpath Engine.initState)).best l
          = (Engine.findHighestWeightPath Gpath Engine.initState).best l)
      ∧ Engine.getPath Gpath (Engine.findHighestWeightPath Gpath
            (Engine.findHighestWeightPath Gpath Engine.initState))
          = Engine.getPath Gpath
            (Engine.findHighestWeightPath Gpath Engine.initState)
      ∧ Engine.resultOf Gpath (Engine.findHighestWeightPath Gpath
            (Engine.findHighestWeightPath Gpath Engine.initState))
          = Engine.resultOf Gpath
            (Engine.findHighestWeightPath Gpath Engine.initState)) :=
  ⟨by decide, by decide,
    claim9_idempotent Gpath
      (Engine.findHighestWeightPath Gpath Engine.initState)
      (Engine.findHighestWeightPath Gpath
        (Engine.findHighestWeightPath Gpath Engine.initState))
      (by decide) (by decide) rfl rfl⟩
